import Mathlib

/-!
Verification of the multi-class Java source transformer of
`lambdachecker-easy-submit` (`src/utils/split.ts` and `src/utils/merge.ts`).

Strings are modelled as `List Char` (`Str`).  Each JavaScript regular
expression used by the source is hand-compiled into an executable matcher
that follows the engine's leftmost-match, ordered-alternation, greedy /
lazy backtracking semantics on the concrete patterns involved.  The file
system is abstracted away: `splitMergedJavaFile` receives the existence
bit of its input file plus the file's text, and returns either the
failure kind or the list of (name, content) files it writes;
`mergeFiles` receives the existence bit of the input directory plus the
contents of the recursively enumerated `.java` files in enumeration
order, and returns either a failure kind or the text written to the
output file.
-/

namespace LCheck

abbrev Str := List Char

def str (s : String) : Str := s.data

/-- JavaScript `\w` (ASCII word character). -/
def isWordChar (c : Char) : Bool :=
  ('a' ≤ c && c ≤ 'z') || ('A' ≤ c && c ≤ 'Z') || ('0' ≤ c && c ≤ '9') || c == '_'

/-- JavaScript `\s`, restricted to the ASCII whitespace characters. -/
def isSpaceChar (c : Char) : Bool :=
  c == ' ' || c == '\t' || c == '\n' || c == '\r' || c == '\x0b' || c == '\x0c'

/-- `content.split('\n')`: JavaScript split on a single newline.
`""` yields `[""]`, a trailing newline yields a trailing empty line. -/
def splitLines : Str → List Str
  | [] => [[]]
  | c :: rest =>
    let r := splitLines rest
    if c == '\n' then [] :: r
    else (c :: r.headD []) :: r.tail

/-- `Array.prototype.join(sep)`. -/
def joinWith (sep : Str) : List Str → Str
  | [] => []
  | [l] => l
  | l :: rest => l ++ sep ++ joinWith sep rest

/-- JavaScript `String.prototype.trim` (ASCII whitespace model). -/
def trimStr (s : Str) : Str :=
  ((s.dropWhile isSpaceChar).reverse.dropWhile isSpaceChar).reverse

/-- Literal-prefix matcher: consumes the literal `p` or fails. -/
def litP (p : String) (s : Str) : Option Str :=
  if (str p).isPrefixOf s then some (s.drop (str p).length) else none

/-- `\s+`: requires at least one whitespace char, consumes the maximal run. -/
def ws1 (s : Str) : Option (Str × Str) :=
  let m := s.takeWhile isSpaceChar
  if m.isEmpty then none else some (m, s.dropWhile isSpaceChar)

/-- `\w+`: requires at least one word char, consumes the maximal run. -/
def word1 (s : Str) : Option (Str × Str) :=
  let m := s.takeWhile isWordChar
  if m.isEmpty then none else some (m, s.dropWhile isWordChar)

/-- `(?:abstract\s+|final\s+)?` with the engine's ordered alternation:
returns the matched text (keyword plus its trailing whitespace) and the
rest; the empty alternative yields `([], s)`.  When the keyword is not
followed by whitespace the group can only match empty (and the following
`class|interface|enum` literal is then bound to fail on the same text,
exactly as in the regex engine). -/
def parseMods (s : Str) : Str × Str :=
  if (str "abstract").isPrefixOf s then
    let t := s.drop 8
    let w := t.takeWhile isSpaceChar
    if w.isEmpty then ([], s) else (str "abstract" ++ w, t.dropWhile isSpaceChar)
  else if (str "final").isPrefixOf s then
    let t := s.drop 5
    let w := t.takeWhile isSpaceChar
    if w.isEmpty then ([], s) else (str "final" ++ w, t.dropWhile isSpaceChar)
  else ([], s)

/-- `(class|interface|enum)`. -/
def parseKind (s : Str) : Option (Str × Str) :=
  if (str "class").isPrefixOf s then some (str "class", s.drop 5)
  else if (str "interface").isPrefixOf s then some (str "interface", s.drop 9)
  else if (str "enum").isPrefixOf s then some (str "enum", s.drop 4)
  else none

/-- `((?:abstract\s+|final\s+)?)(class|interface|enum)\s+(\w+)`:
returns (modifiers text, kind text, whitespace, name, rest). -/
def parseCore (s : Str) : Option (Str × Str × Str × Str × Str) :=
  let (m, s1) := parseMods s
  match parseKind s1 with
  | none => none
  | some (k, s2) =>
    match ws1 s2 with
    | none => none
    | some (w, s3) =>
      match word1 s3 with
      | none => none
      | some (n, s4) => some (m, k, w, n, s4)

/-- A successful match of the Splitter's `typeRegex`
`^\s*(public\s+)?((?:abstract\s+|final\s+)?)(class|interface|enum)\s+(\w+)`
decomposed into its captured pieces plus surrounding text. -/
structure Header where
  lead : Str
  pub : Option Str
  mods : Str
  kind : Str
  sp : Str
  name : Str
  rest : Str
deriving Repr, DecidableEq

/-- `line.match(typeRegex)` of `split.ts` (anchored at the start of the
single line, no multiline flag). -/
def matchTypeHeader (l : Str) : Option Header :=
  let lead := l.takeWhile isSpaceChar
  let s := l.dropWhile isSpaceChar
  let (pub, s1) :=
    if (str "public").isPrefixOf s then
      let t := s.drop 6
      let w := t.takeWhile isSpaceChar
      if w.isEmpty then ((none : Option Str), s) else (some (str "public" ++ w), t.dropWhile isSpaceChar)
    else (none, s)
  match parseCore s1 with
  | none => none
  | some (m, k, w, n, r) => some ⟨lead, pub, m, k, w, n, r⟩

lemma isPrefixOf_eq_append {l s : Str} (h : l.isPrefixOf s = true) :
    s = l ++ s.drop l.length := by
  induction l generalizing s with
  | nil => simp
  | cons c cs ih =>
    cases s with
    | nil => simp [List.isPrefixOf] at h
    | cons d ds =>
      simp only [List.isPrefixOf, Bool.and_eq_true, beq_iff_eq] at h
      obtain ⟨rfl, h2⟩ := h
      simpa using ih h2

lemma isPrefixOf_length_le {l s : Str} (h : l.isPrefixOf s = true) :
    l.length ≤ s.length := by
  have := isPrefixOf_eq_append h
  have h2 : s.length = l.length + (s.drop l.length).length := by
    conv_lhs => rw [this]
    simp
  omega

lemma length_dropWhile_lt {p : Char → Bool} {s : Str}
    (h : (s.takeWhile p).isEmpty = false) :
    (s.dropWhile p).length < s.length := by
  have hsplit : s.takeWhile p ++ s.dropWhile p = s := List.takeWhile_append_dropWhile p s
  have hlen : (s.takeWhile p).length + (s.dropWhile p).length = s.length := by
    rw [← List.length_append, hsplit]
  have : (s.takeWhile p).length ≠ 0 := by
    intro h0
    rw [List.length_eq_zero] at h0
    simp [h0, List.isEmpty] at h
  omega

lemma ws1_length {s m r : Str} (h : ws1 s = some (m, r)) : r.length < s.length := by
  unfold ws1 at h
  by_cases he : (s.takeWhile isSpaceChar).isEmpty
  · simp [he] at h
  · simp only [Bool.not_eq_true] at he
    simp [he] at h
    obtain ⟨-, rfl⟩ := h
    exact length_dropWhile_lt he

lemma word1_length {s m r : Str} (h : word1 s = some (m, r)) : r.length < s.length := by
  unfold word1 at h
  by_cases he : (s.takeWhile isWordChar).isEmpty
  · simp [he] at h
  · simp only [Bool.not_eq_true] at he
    simp [he] at h
    obtain ⟨-, rfl⟩ := h
    exact length_dropWhile_lt he

lemma length_dropWhile_le {p : Char → Bool} (s : Str) :
    (s.dropWhile p).length ≤ s.length := by
  have hsplit : s.takeWhile p ++ s.dropWhile p = s := List.takeWhile_append_dropWhile p s
  have : (s.takeWhile p).length + (s.dropWhile p).length = s.length := by
    rw [← List.length_append, hsplit]
  omega

lemma parseMods_length {s m r : Str} (h : parseMods s = (m, r)) :
    r.length ≤ s.length := by
  unfold parseMods at h
  by_cases hA : (str "abstract").isPrefixOf s = true
  · simp only [hA, if_true] at h
    by_cases hw : ((s.drop 8).takeWhile isSpaceChar).isEmpty = true
    · simp only [hw, if_true, Prod.mk.injEq] at h
      exact h.2 ▸ le_rfl
    · simp only [hw, if_false, Prod.mk.injEq, Bool.false_eq_true] at h
      rw [← h.2]
      calc ((s.drop 8).dropWhile isSpaceChar).length
          ≤ (s.drop 8).length := length_dropWhile_le (s.drop 8)
        _ ≤ s.length := by simp
  · simp only [hA, Bool.false_eq_true, if_false] at h
    by_cases hF : (str "final").isPrefixOf s = true
    · simp only [hF, if_true] at h
      by_cases hw : ((s.drop 5).takeWhile isSpaceChar).isEmpty = true
      · simp only [hw, if_true, Prod.mk.injEq] at h
        exact h.2 ▸ le_rfl
      · simp only [hw, if_false, Prod.mk.injEq, Bool.false_eq_true] at h
        rw [← h.2]
        calc ((s.drop 5).dropWhile isSpaceChar).length
            ≤ (s.drop 5).length := length_dropWhile_le (s.drop 5)
          _ ≤ s.length := by simp
    · simp only [hF, Bool.false_eq_true, if_false, Prod.mk.injEq] at h
      exact h.2 ▸ le_rfl

lemma parseKind_length {s k r : Str} (h : parseKind s = some (k, r)) :
    r.length < s.length := by
  unfold parseKind at h
  by_cases h1 : (str "class").isPrefixOf s = true
  · simp only [h1, if_true, Option.some.injEq, Prod.mk.injEq] at h
    have := isPrefixOf_length_le h1
    rw [← h.2]
    simp [str] at this ⊢
    omega
  · simp only [h1, Bool.false_eq_true, if_false] at h
    by_cases h2 : (str "interface").isPrefixOf s = true
    · simp only [h2, if_true, Option.some.injEq, Prod.mk.injEq] at h
      have := isPrefixOf_length_le h2
      rw [← h.2]
      simp [str] at this ⊢
      omega
    · simp only [h2, Bool.false_eq_true, if_false] at h
      by_cases h3 : (str "enum").isPrefixOf s = true
      · simp only [h3, if_true, Option.some.injEq, Prod.mk.injEq] at h
        have := isPrefixOf_length_le h3
        rw [← h.2]
        simp [str] at this ⊢
        omega
      · simp [h3] at h

lemma parseCore_length {s : Str} {m k w n r : Str}
    (h : parseCore s = some (m, k, w, n, r)) : r.length < s.length := by
  unfold parseCore at h
  rcases hm : parseMods s with ⟨m', s1⟩
  rw [hm] at h
  dsimp only at h
  rcases hk : parseKind s1 with _ | ⟨k', s2⟩ <;> rw [hk] at h <;> dsimp only at h
  · simp at h
  · rcases hw : ws1 s2 with _ | ⟨w', s3⟩ <;> rw [hw] at h <;> dsimp only at h
    · simp at h
    · rcases hn : word1 s3 with _ | ⟨n', s4⟩ <;> rw [hn] at h <;> dsimp only at h
      · simp at h
      · simp at h
        obtain ⟨-, -, -, -, rfl⟩ := h
        have h1 := parseMods_length hm
        have h2 := parseKind_length hk
        have h3 := ws1_length hw
        have h4 := word1_length hn
        omega


/-- One attempt of the Merger's class-name regex
`\b(public\s+)?(abstract\s+|final\s+)?(class|interface|enum)\s+(\w+)` at a
fixed position (the word-boundary test is done by the caller): returns
the captured name and the text after the match.  An initial `public` not
followed by whitespace makes the optional group match empty, after which
the kind alternatives necessarily fail on the same text, as in the
engine. -/
def matchClassDeclAt (s : Str) : Option (Str × Str) :=
  let s1 :=
    if (str "public").isPrefixOf s then
      let t := s.drop 6
      if (t.takeWhile isSpaceChar).isEmpty then s else t.dropWhile isSpaceChar
    else s
  match parseCore s1 with
  | none => none
  | some (_, _, _, n, r) => some (n, r)

lemma matchClassDeclAt_length {s n r : Str} (h : matchClassDeclAt s = some (n, r)) :
    r.length < s.length := by
  unfold matchClassDeclAt at h
  by_cases hp : (str "public").isPrefixOf s = true
  · simp only [hp, if_true] at h
    by_cases hw : ((s.drop 6).takeWhile isSpaceChar).isEmpty = true
    · simp only [hw, if_true] at h
      rcases hc : parseCore s with _ | ⟨m', k', w', n', r'⟩ <;> rw [hc] at h <;> dsimp only at h
      · exact absurd h (by simp)
      · simp only [Option.some.injEq, Prod.mk.injEq] at h
        exact h.2 ▸ parseCore_length hc
    · simp only [hw, Bool.false_eq_true, if_false] at h
      rcases hc : parseCore ((s.drop 6).dropWhile isSpaceChar) with _ | ⟨m', k', w', n', r'⟩ <;>
        rw [hc] at h <;> dsimp only at h
      · exact absurd h (by simp)
      · simp only [Option.some.injEq, Prod.mk.injEq] at h
        have h1 := parseCore_length hc
        have h2 := length_dropWhile_le (p := isSpaceChar) (s.drop 6)
        have h3 : (s.drop 6).length ≤ s.length := by simp
        rw [← h.2]
        omega
  · simp only [hp, Bool.false_eq_true, if_false] at h
    rcases hc : parseCore s with _ | ⟨m', k', w', n', r'⟩ <;> rw [hc] at h <;> dsimp only at h
    · exact absurd h (by simp)
    · simp only [Option.some.injEq, Prod.mk.injEq] at h
      exact h.2 ▸ parseCore_length hc

/-- The global scan of `extractClassNames`
(`regex.exec` in a loop): tries the pattern at every position whose
preceding character is not a word character (the `\b` before a
necessarily word-initial match), restarting after each match's end.
`wordBefore` records whether the previous character was a word
character. -/
def scanClassNamesGo : Nat → Str → Bool → List Str
  | _, [], _ => []
  | 0, _ :: _, _ => []
  | fuel + 1, c :: rest, wordBefore =>
    if wordBefore then scanClassNamesGo fuel rest (isWordChar c)
    else
      match matchClassDeclAt (c :: rest) with
      | some (n, r) => n :: scanClassNamesGo fuel r true
      | none => scanClassNamesGo fuel rest (isWordChar c)

/-- `extractClassNames(content)`: every name captured by the global scan,
in match order.  The structural fuel `content.length` always suffices:
every step consumes at least one character (`matchClassDeclAt_length`),
so the zero-fuel-on-nonempty-text case is unreachable. -/
def classNamesOf (content : Str) : List Str := scanClassNamesGo content.length content false

/-- One attempt of the Merger's strip regex
`\bpublic\s+((?:abstract\s+|final\s+)?)(class|interface|enum)` at a fixed
position: on success returns the replacement `$1$2` and the text after
the match (which ends right after the kind keyword). -/
def stripMatchAt (s : Str) : Option (Str × Str) :=
  if (str "public").isPrefixOf s then
    let t := s.drop 6
    if (t.takeWhile isSpaceChar).isEmpty then none
    else
      let t2 := t.dropWhile isSpaceChar
      let (m, t3) := parseMods t2
      match parseKind t3 with
      | some (k, r) => some (m ++ k, r)
      | none => none
  else none

lemma stripMatchAt_length {s m r : Str} (h : stripMatchAt s = some (m, r)) :
    r.length < s.length := by
  unfold stripMatchAt at h
  by_cases hp : (str "public").isPrefixOf s = true
  · simp only [hp, if_true] at h
    by_cases hw : ((s.drop 6).takeWhile isSpaceChar).isEmpty = true
    · simp [hw] at h
    · simp only [hw, Bool.false_eq_true, if_false] at h
      rcases hm : parseMods ((s.drop 6).dropWhile isSpaceChar) with ⟨m', t3⟩
      rw [hm] at h
      dsimp only at h
      rcases hk : parseKind t3 with _ | ⟨k', r'⟩ <;> rw [hk] at h <;> dsimp only at h
      · exact absurd h (by simp)
      · simp only [Option.some.injEq, Prod.mk.injEq] at h
        have h1 := parseKind_length hk
        have h2 := parseMods_length hm
        have h3 := length_dropWhile_lt (p := isSpaceChar) (s := s.drop 6) (by
          cases hz : ((s.drop 6).takeWhile isSpaceChar).isEmpty
          · rfl
          · exact absurd hz hw)
        have h4 : s.length = 6 + (s.drop 6).length := by
          have h5 := isPrefixOf_length_le hp
          simp [str] at h5
          simp
          omega
        rw [← h.2]
        omega
  · simp [hp] at h

/-- The global replace
`body.replace(/\bpublic\s+((?:abstract\s+|final\s+)?)(class|interface|enum)/g, '$1$2')`:
scans left to right, emitting unmatched characters verbatim and each
match's replacement, continuing after the match's end (replaced text is
not rescanned). -/
def stripPublicGo : Nat → Str → Bool → Str
  | _, [], _ => []
  | 0, s, _ => s
  | fuel + 1, c :: rest, wordBefore =>
    if wordBefore then c :: stripPublicGo fuel rest (isWordChar c)
    else
      match stripMatchAt (c :: rest) with
      | some (m, r) => m ++ stripPublicGo fuel r true
      | none => c :: stripPublicGo fuel rest (isWordChar c)

/-- The strip applied to a whole body, starting with no preceding
character (no word before position 0).  The structural fuel `s.length`
always suffices: every step consumes at least one character
(`stripMatchAt_length`), so the zero-fuel-on-nonempty-text case is
unreachable. -/
def stripPublicTypes (s : Str) : Str := stripPublicGo s.length s false

/-- `[\w.]` character class of the import regex. -/
def isQualChar (c : Char) : Bool := isWordChar c || c == '.'

/-- Backtracking of `([\w.]+)\.(\w+)` inside the maximal `[\w.]` run `R`:
the greedy group shrinks from the right, so the successful division (if
any) is at the last dot of `R`, with a non-empty all-word suffix after it
and a non-empty prefix before it.  Returns (prefix, simple name). -/
def importQualSplit (R : Str) : Option (Str × Str) :=
  let rev := R.reverse
  let wrev := rev.takeWhile isWordChar
  match rev.dropWhile isWordChar with
  | '.' :: prev =>
    if wrev.isEmpty || prev.isEmpty then none else some (prev.reverse, wrev.reverse)
  | _ => none

/-- One attempt of `import\s+([\w.]+)\.(\w+);` at a fixed position:
after `import` and whitespace, the maximal `[\w.]` run must be divisible
at its last dot and be followed immediately by a semicolon.  Returns the
two captured groups. -/
def importMatchAt (s : Str) : Option (Str × Str) :=
  if (str "import").isPrefixOf s then
    let t := s.drop 6
    if (t.takeWhile isSpaceChar).isEmpty then none
    else
      let t2 := t.dropWhile isSpaceChar
      let R := t2.takeWhile isQualChar
      match t2.dropWhile isQualChar with
      | ';' :: _ => if R.isEmpty then none else importQualSplit R
      | _ => none
  else none

/-- `imp.match(/import\s+([\w.]+)\.(\w+);/)`: leftmost match over the
whole (trimmed) line. -/
def findImportMatch (s : Str) : Option (Str × Str) :=
  match s with
  | [] => none
  | _ :: rest =>
    match importMatchAt s with
    | some pr => some pr
    | none => findImportMatch rest

/-- The simple name captured by the import regex on a line, if any. -/
def importSimpleName (l : Str) : Option Str := (findImportMatch l).map (fun p => p.2)

/-- One attempt of `public\s+static\s+void\s+main\s*\(` at a fixed
position. -/
def sigMatchAt (s : Str) : Bool :=
  (Option.isSome <| do
    let s ← litP "public" s
    let (_, s) ← ws1 s
    let s ← litP "static" s
    let (_, s) ← ws1 s
    let s ← litP "void" s
    let (_, s) ← ws1 s
    let s ← litP "main" s
    litP "(" (s.dropWhile isSpaceChar))

/-- Whether `public\s+static\s+void\s+main\s*\(` occurs anywhere in
`s` (the target of the lazy gap `[\s\S]*?` of the entry-point regex). -/
def containsSig (s : Str) : Bool :=
  match s with
  | [] => false
  | _ :: rest => sigMatchAt s || containsSig rest

/-- The greedy `(\w+)` group of the entry-point regex backtracks from the
maximal word run `W` downwards until the rest of the pattern (lazy gap
followed by the main signature) can match in the remaining text `R`;
the group must stay non-empty. -/
def mainNameBTrev (Wrev R : Str) : Option Str :=
  match Wrev with
  | [] => none
  | c :: cs =>
    if containsSig R then some ((c :: cs).reverse)
    else mainNameBTrev cs (c :: R)

/-- One attempt of
`public\s+class\s+(\w+)[\s\S]*?public\s+static\s+void\s+main\s*\(`
at a fixed position: returns the captured class name. -/
def mainMatchAt (s : Str) : Option Str :=
  (litP "public" s).bind fun s1 =>
  (ws1 s1).bind fun p1 =>
  (litP "class" p1.2).bind fun s2 =>
  (ws1 s2).bind fun p2 =>
  let W := p2.2.takeWhile isWordChar
  let R := p2.2.dropWhile isWordChar
  if W.isEmpty then none else mainNameBTrev W.reverse R

/-- `body.match(mainRegex)`: leftmost position whose attempt succeeds. -/
def findMain (s : Str) : Option Str :=
  match s with
  | [] => none
  | _ :: rest =>
    match mainMatchAt s with
    | some n => some n
    | none => findMain rest

/-- One attempt of the Splitter's rewrite pattern
`^\s*(?!public)(\s*)((?:abstract\s+|final\s+)?)(class|interface|enum)\s+(\w+)`
at a line-start position of the multiline string.  The leading greedy
`\s*` absorbs all whitespace (possibly across newlines); the negative
lookahead then rules out a literal `public`; the captured `(\s*)` is
necessarily empty, so the replacement
`` `${space}public ${modifier || ''}${type} ${name}` `` starts with
`public`.  Returns the replacement text and the rest after the match. -/
def rwMatchAt (s : Str) : Option (Str × Str) :=
  let t := s.dropWhile isSpaceChar
  if (str "public").isPrefixOf t then none
  else
    match parseCore t with
    | none => none
    | some (m, k, _, n, r) => some (str "public " ++ m ++ k ++ str " " ++ n, r)

/-- `classContent.replace(rwRegex, fn)` with the `m` flag and no `g`
flag: the string is scanned left to right, the pattern is attempted at
each line start, and only the first successful match is replaced. -/
def rewriteFirstGo : Str → Bool → Str
  | [], _ => []
  | c :: rest, atLineStart =>
    if atLineStart then
      match rwMatchAt (c :: rest) with
      | some (rep, r) => rep ++ r
      | none => c :: rewriteFirstGo rest (c == '\n')
    else c :: rewriteFirstGo rest (c == '\n')

def rewriteFirst (s : Str) : Str := rewriteFirstGo s true

/-! ### The Splitter (`splitMergedJavaFile`) -/

/-- The loop state of `splitMergedJavaFile`. -/
structure SState where
  importLines : List Str
  typeBlocks : List (Str × List Str)
  currentBlock : List Str
  currentName : Str
  inType : Bool
deriving Repr, DecidableEq

/-- One iteration of the Splitter's line loop. -/
def splitStep (st : SState) (line : Str) : SState :=
  if (str "import ").isPrefixOf line then
    { st with importLines := st.importLines ++ [line] }
  else
    match matchTypeHeader line with
    | some h =>
      let st' :=
        if st.inType && !st.currentBlock.isEmpty && !st.currentName.isEmpty then
          { st with typeBlocks := st.typeBlocks ++ [(st.currentName, st.currentBlock)] }
        else st
      { st' with currentName := h.name, currentBlock := [line], inType := true }
    | none =>
      if st.inType then { st with currentBlock := st.currentBlock ++ [line] } else st

/-- The whole scan, including the final close of the last open type. -/
def splitScan (lines : List Str) : SState :=
  let st := lines.foldl splitStep ⟨[], [], [], [], false⟩
  if st.inType && !st.currentBlock.isEmpty && !st.currentName.isEmpty then
    { st with typeBlocks := st.typeBlocks ++ [(st.currentName, st.currentBlock)] }
  else st

inductive SplitResult where
  | inputNotFound
  | ok (files : List (Str × Str))
deriving Repr, DecidableEq

/-- The file written for one recorded type block: name `<name>.java`,
content `[...importLines, '', classContent].join('\n')` where
`classContent` is the block's text after the visibility rewrite. -/
def splitFileOutput (importLines : List Str) (block : Str × List Str) : Str × Str :=
  let classContent := rewriteFirst (joinWith (str "\n") block.2)
  (block.1 ++ str ".java", joinWith (str "\n") (importLines ++ [[]] ++ [classContent]))

/-- `splitMergedJavaFile(filePath, outputDir)`: `fileExists` abstracts
`fs.existsSync(filePath)`, `content` is the file's text; the result
carries the list of files written (console messages are represented by
the result constructors). -/
def splitModel (fileExists : Bool) (content : Str) : SplitResult :=
  if !fileExists then .inputNotFound
  else
    let st := splitScan (splitLines content)
    .ok (st.typeBlocks.map (splitFileOutput st.importLines))

/-! ### The Merger (`mergeFiles`) -/

/-- The mutable collections of `mergeFiles`. -/
structure MState where
  imports : List Str
  mainClassName : Str
  mainClassContent : Str
  otherClasses : List Str
  definedClasses : List Str
deriving Repr, DecidableEq

/-- `Set.add`: JavaScript set insertion (string equality, insertion
order preserved, duplicates ignored). -/
def addSet (l : List Str) (x : Str) : List Str := if x ∈ l then l else l ++ [x]

/-- Add every scanned class name to the `definedClasses` set. -/
def addNames (l : List Str) (ns : List Str) : List Str := ns.foldl addSet l

/-- Lines of a file after dropping `package` lines
(`content.split('\n').filter(line => !line.startsWith('package'))`). -/
def fileLines (content : Str) : List Str :=
  (splitLines content).filter (fun l => !((str "package").isPrefixOf l))

/-- The import lines of a file (those starting with `import`). -/
def importLinesOf (content : Str) : List Str :=
  (fileLines content).filter (fun l => (str "import").isPrefixOf l)

/-- The non-import lines joined back: the `body` of
`extractFileContent`. -/
def fileBody (content : Str) : Str :=
  joinWith (str "\n") ((fileLines content).filter (fun l => !((str "import").isPrefixOf l)))

/-- Per import line: trim it, run the import regex, and keep the trimmed
line unless its captured simple name is among the defined classes. -/
def keepImport (defined : List Str) (line : Str) : Option Str :=
  let imp := trimStr line
  match findImportMatch imp with
  | some pr => if pr.2 ∈ defined then none else some imp
  | none => some imp

/-- The kept (trimmed) import lines a single file contributes. -/
def keptImportsOf (defined : List Str) (content : Str) : List Str :=
  (importLinesOf content).filterMap (keepImport defined)

/-- `extractFileContent(filePath)`: re-scan class names (a no-op once
pass 1 ran over every file), filter `package` lines, route `import`
lines through the self-import check into the `imports` set, and classify
the remaining body by the entry-point regex: a match records the body as
`mainClassContent` (overwriting any previous one), otherwise the body
with `public` stripped from type headers is appended to
`otherClasses`. -/
def extractFileContent (st : MState) (content : Str) : MState :=
  let defined := addNames st.definedClasses (classNamesOf content)
  let imports := (keptImportsOf defined content).foldl addSet st.imports
  let body := fileBody content
  match findMain body with
  | some n =>
    { st with definedClasses := defined, imports := imports,
              mainClassName := n, mainClassContent := body }
  | none =>
    { st with definedClasses := defined, imports := imports,
              otherClasses := st.otherClasses ++ [stripPublicTypes body] }

/-- Pass 1 over all files: `definedClasses` after `extractClassNames` ran
on every file. -/
def definedAll (files : List Str) : List Str :=
  files.foldl (fun acc c => addNames acc (classNamesOf c)) []

/-- The state after both passes of `mergeFiles`. -/
def mergeState (files : List Str) : MState :=
  files.foldl extractFileContent ⟨[], [], [], [], definedAll files⟩

inductive MergeResult where
  | inputNotFound
  | noSourceFiles
  | noEntryPoint
  | ok (output : Str)
deriving Repr, DecidableEq

/-- `Array.from(imports).sort()`: default JavaScript sort = lexicographic
on code units; modelled by insertion sort under the lexicographic order
on `List Char` (the result is the unique sorted arrangement of the
duplicate-free set). -/
def sortImports (l : List Str) : List Str :=
  List.insertionSort (fun a b => a ≤ b) l

/-- `mergeFiles(inputDir, outputFilePath)`: `dirExists` abstracts
`fs.existsSync(inputDir)`, `files` holds the contents of the `.java`
files found by the recursive enumeration, in enumeration order.  The
`ok` payload is the text written to `outputFilePath`; the error
constructors correspond to the three `console.error` early returns,
which write nothing. -/
def mergeFilesModel (dirExists : Bool) (files : List Str) : MergeResult :=
  if !dirExists then .inputNotFound
  else if files.isEmpty then .noSourceFiles
  else
    let st := mergeState files
    if st.mainClassContent.isEmpty || st.mainClassName.isEmpty then .noEntryPoint
    else
      .ok (joinWith (str "\n\n")
        (sortImports st.imports ++ [[]] ++ st.otherClasses ++ [[]] ++ [st.mainClassContent]))

/-- The text merge writes, if any. -/
def mergeOutput (dirExists : Bool) (files : List Str) : Option Str :=
  match mergeFilesModel dirExists files with
  | .ok o => some o
  | _ => none

/-- Whether a file's extracted body matches the entry-point regex. -/
def hasMainFile (content : Str) : Bool := (findMain (fileBody content)).isSome

/-- A line that is a type header carrying the `public` modifier, per the
Splitter's `typeRegex`. -/
def isPublicHeaderLine (l : Str) : Bool :=
  match matchTypeHeader l with
  | some h => h.pub.isSome
  | none => false

/-- Number of public type header lines of a text. -/
def countPub (s : Str) : Nat :=
  ((splitLines s).filter isPublicHeaderLine).length

/-- The files a successful split writes. -/
def splitFilesOf (content : Str) : List (Str × Str) :=
  match splitModel true content with
  | .ok fs => fs
  | _ => []

/-! ### Generic helper lemmas -/

lemma joinWith_cons_cons (sep a b : Str) (t : List Str) :
    joinWith sep (a :: b :: t) = a ++ sep ++ joinWith sep (b :: t) := rfl

lemma joinWith_append_singleton (sep : Str) (xs : List Str) (x : Str) :
    ∃ pre, joinWith sep (xs ++ [x]) = pre ++ x := by
  induction xs with
  | nil => exact ⟨[], rfl⟩
  | cons a xs ih =>
    rcases ih with ⟨pre, hpre⟩
    cases xs with
    | nil => exact ⟨a ++ sep, by simp [joinWith]⟩
    | cons b t =>
      refine ⟨a ++ sep ++ pre, ?_⟩
      show joinWith sep (a :: (b :: t ++ [x])) = a ++ sep ++ pre ++ x
      rw [List.cons_append, joinWith_cons_cons, ← List.cons_append, hpre]
      simp

lemma getLast?_cons_of_ne_nil {α : Type} (a : α) {l : List α} (h : l ≠ []) :
    (a :: l).getLast? = l.getLast? := by
  cases l with
  | nil => exact absurd rfl h
  | cons b t => rfl

/-! ### Components of one `extractFileContent` step -/

lemma extract_definedClasses (st : MState) (c : Str) :
    (extractFileContent st c).definedClasses = addNames st.definedClasses (classNamesOf c) := by
  unfold extractFileContent
  cases h : findMain (fileBody c) <;> simp [h]

lemma extract_imports (st : MState) (c : Str) :
    (extractFileContent st c).imports =
      (keptImportsOf (addNames st.definedClasses (classNamesOf c)) c).foldl addSet st.imports := by
  unfold extractFileContent
  cases h : findMain (fileBody c) <;> simp [h]

lemma extract_main_some (st : MState) (c : Str) (n : Str)
    (h : findMain (fileBody c) = some n) :
    (extractFileContent st c).mainClassContent = fileBody c ∧
    (extractFileContent st c).mainClassName = n ∧
    (extractFileContent st c).otherClasses = st.otherClasses := by
  unfold extractFileContent
  simp [h]

lemma extract_main_none (st : MState) (c : Str)
    (h : findMain (fileBody c) = none) :
    (extractFileContent st c).mainClassContent = st.mainClassContent ∧
    (extractFileContent st c).mainClassName = st.mainClassName ∧
    (extractFileContent st c).otherClasses = st.otherClasses ++ [stripPublicTypes (fileBody c)] := by
  unfold extractFileContent
  simp [h]

/-! ### The entry-point fold: the last matching file wins -/

lemma foldl_extract_main (fs : List Str) (st : MState) :
    ((fs.foldl extractFileContent st).mainClassContent,
     (fs.foldl extractFileContent st).mainClassName) =
      match (fs.filter (fun c => hasMainFile c)).getLast? with
      | some c => (fileBody c, (findMain (fileBody c)).getD [])
      | none => (st.mainClassContent, st.mainClassName) := by
  induction fs generalizing st with
  | nil => rfl
  | cons f fs ih =>
    simp only [List.foldl_cons, List.filter_cons]
    by_cases hf : hasMainFile f = true
    · simp only [hf, if_true]
      rcases hm : findMain (fileBody f) with _ | n
      · simp [hasMainFile, hm] at hf
      · by_cases hrest : (fs.filter (fun c => hasMainFile c)) = []
        · rw [ih]
          simp [hrest, extract_main_some st f n hm, hm]
        · rw [ih]
          rw [getLast?_cons_of_ne_nil f hrest]
          rcases hlast : (fs.filter (fun c => hasMainFile c)).getLast? with _ | c
          · rw [List.getLast?_eq_none_iff] at hlast
            exact absurd hlast hrest
          · rfl
    · simp only [Bool.not_eq_true] at hf
      simp only [hf, Bool.false_eq_true, if_false]
      rw [ih]
      have hm : findMain (fileBody f) = none := by
        cases hq : findMain (fileBody f) with
        | none => rfl
        | some n => simp [hasMainFile, hq] at hf
      rcases hlast : (fs.filter (fun c => hasMainFile c)).getLast? with _ | c
      · obtain ⟨h1, h2, -⟩ := extract_main_none st f hm
        simp [h1, h2]
      · rfl

lemma mainNameBTrev_ne_nil {Wrev R n : Str} (h : mainNameBTrev Wrev R = some n) :
    n ≠ [] := by
  induction Wrev generalizing R with
  | nil => simp [mainNameBTrev] at h
  | cons c cs ih =>
    rw [mainNameBTrev] at h
    by_cases hc : containsSig R = true
    · simp only [hc, if_true, Option.some.injEq] at h
      rw [← h]
      simp
    · simp only [hc, Bool.false_eq_true, if_false] at h
      exact ih h

lemma findMain_name_ne_nil {s n : Str} (h : findMain s = some n) : n ≠ [] := by
  induction s with
  | nil => simp [findMain] at h
  | cons c rest ih =>
    rw [findMain] at h
    rcases hm : mainMatchAt (c :: rest) with _ | m <;> rw [hm] at h <;> dsimp only at h
    · exact ih h
    · injection h with h
      subst h
      unfold mainMatchAt at hm
      rcases h1 : litP "public" (c :: rest) with _ | s1 <;> rw [h1] at hm
      · simp only [Option.none_bind] at hm
        cases hm
      simp only [Option.some_bind] at hm
      rcases h2 : ws1 s1 with _ | p1 <;> rw [h2] at hm
      · simp only [Option.none_bind] at hm
        cases hm
      simp only [Option.some_bind] at hm
      rcases h3 : litP "class" p1.2 with _ | s2 <;> rw [h3] at hm
      · simp only [Option.none_bind] at hm
        cases hm
      simp only [Option.some_bind] at hm
      rcases h4 : ws1 s2 with _ | p2 <;> rw [h4] at hm
      · simp only [Option.none_bind] at hm
        cases hm
      simp only [Option.some_bind] at hm
      by_cases h5 : (p2.2.takeWhile isWordChar).isEmpty = true
      · rw [if_pos h5] at hm
        cases hm
      · rw [if_neg h5] at hm
        exact mainNameBTrev_ne_nil hm

lemma findMain_arg_ne_nil {s n : Str} (h : findMain s = some n) : s ≠ [] := by
  intro he
  rw [he] at h
  simp [findMain] at h

/-! ### Split-scan lemmas -/

lemma foldl_splitStep_noHeader (lines : List Str) (st : SState)
    (h : ∀ l ∈ lines, matchTypeHeader l = none) (hin : st.inType = false) :
    (lines.foldl splitStep st).inType = false ∧
    (lines.foldl splitStep st).typeBlocks = st.typeBlocks := by
  induction lines generalizing st with
  | nil => exact ⟨hin, rfl⟩
  | cons l ls ih =>
    have hl : matchTypeHeader l = none := h l (List.mem_cons_self l ls)
    have hrest : ∀ x ∈ ls, matchTypeHeader x = none :=
      fun x hx => h x (List.mem_cons_of_mem l hx)
    simp only [List.foldl_cons]
    have hstep : (splitStep st l).inType = false ∧ (splitStep st l).typeBlocks = st.typeBlocks := by
      unfold splitStep
      by_cases hi : (str "import ").isPrefixOf l = true
      · simp [hi, hin]
      · simp [hi, hl, hin]
    have hres := ih (splitStep st l) hrest hstep.1
    exact ⟨hres.1, hres.2.trans hstep.2⟩

/-- C8: for a `mergedFilePath` that does not exist, split reports the
`InputNotFound` failure (the `File not found` message plus early return)
and writes no files: the result is the failure kind, never a list of
written files. -/
theorem split_missing_input_fails (content : Str) :
    splitModel false content = .inputNotFound ∧
    ∀ fs, splitModel false content ≠ .ok fs := by
  constructor
  · rfl
  · intro fs h
    cases h

/-- C9: splitting an existing file none of whose lines matches the
type-header pattern writes zero files and is not an error: the scan
records no type block, so the result is a normal success carrying an
empty list of written files. -/
theorem split_zero_headers_ok (content : Str)
    (h : ∀ l ∈ splitLines content, matchTypeHeader l = none) :
    splitModel true content = .ok [] := by
  unfold splitModel splitScan
  have hfold := foldl_splitStep_noHeader (splitLines content) ⟨[], [], [], [], false⟩ h rfl
  simp [hfold.1, hfold.2]

/-- Witness for C9 at a concrete input. -/
theorem split_zero_headers_ok_witness :
    splitModel true (str "int x;\nint y;\n") = .ok [] :=
  split_zero_headers_ok (str "int x;\nint y;\n") (by decide)

/-- C10: whenever merge aborts -- missing input directory, no source
files, or the entry-point check failing after both passes -- the result
is never the `ok` constructor, i.e. nothing is written to
`outputFilePath` (the single `writeFileSync` lies after all three early
returns). -/
theorem merge_abort_writes_nothing (dirExists : Bool) (files : List Str) (out : Str)
    (h : dirExists = false ∨ files = [] ∨
         (mergeState files).mainClassContent = [] ∨
         (mergeState files).mainClassName = []) :
    mergeFilesModel dirExists files ≠ .ok out := by
  intro hok
  unfold mergeFilesModel at hok
  cases dirExists
  · simp at hok
  · simp only [Bool.not_true, Bool.false_eq_true, if_false] at hok
    rcases h with h | h | h | h
    · simp at h
    · rw [h] at hok
      simp at hok
    · cases hf : files.isEmpty
      · rw [hf] at hok
        simp only [Bool.false_eq_true, if_false] at hok
        rw [h] at hok
        simp at hok
      · rw [hf] at hok
        simp at hok
    · cases hf : files.isEmpty
      · rw [hf] at hok
        simp only [Bool.false_eq_true, if_false] at hok
        rw [h] at hok
        simp at hok
      · rw [hf] at hok
        simp at hok

/-- Witness for C10 at a concrete input (missing directory). -/
theorem merge_abort_writes_nothing_witness :
    mergeFilesModel false [str "class A \x7b \x7d"] ≠ .ok [] :=
  merge_abort_writes_nothing false [str "class A \x7b \x7d"] [] (Or.inl rfl)

/-- C7: if the directory exists and holds source files but no file's
body matches the entry-point pattern, then merge fails with the
`NoEntryPoint` error (and, the `ok` constructor being the only one
carrying text, produces no merged output). -/
theorem merge_no_entry_point (files : List Str) (hne : files ≠ [])
    (h : ∀ f ∈ files, hasMainFile f = false) :
    mergeFilesModel true files = .noEntryPoint := by
  have hfilter : files.filter (fun c => hasMainFile c) = [] := by
    rw [List.filter_eq_nil_iff]
    intro a ha
    simp [h a ha]
  have hmain := foldl_extract_main files ⟨[], [], [], [], definedAll files⟩
  rw [hfilter] at hmain
  simp only [List.getLast?_nil, Prod.mk.injEq] at hmain
  have hfe : files.isEmpty = false := by
    cases files
    · exact absurd rfl hne
    · rfl
  unfold mergeFilesModel
  rw [hfe]
  simp only [Bool.not_true, Bool.false_eq_true, if_false]
  unfold mergeState
  rw [hmain.1]
  simp

/-- Witness for C7 at a concrete input. -/
theorem merge_no_entry_point_witness :
    mergeFilesModel true [str "class A \x7b \x7d"] = .noEntryPoint :=
  merge_no_entry_point [str "class A \x7b \x7d"] (by decide) (by decide)

/-- C4: when two or more files match the entry-point pattern, merge does
not fail; the recorded `mainClassContent` is the body of the last
matching file in enumeration order (earlier candidates are silently
overwritten), and that body is placed at the end of the output. -/
theorem merge_last_entry_point_wins (files : List Str)
    (h2 : 2 ≤ (files.filter (fun c => hasMainFile c)).length) :
    ∃ c out, (files.filter (fun c => hasMainFile c)).getLast? = some c ∧
      (mergeState files).mainClassContent = fileBody c ∧
      mergeFilesModel true files = .ok out ∧
      ∃ pre, out = pre ++ fileBody c := by
  have hne : (files.filter (fun c => hasMainFile c)) ≠ [] := by
    intro h
    rw [h] at h2
    simp at h2
  rcases hlast : (files.filter (fun c => hasMainFile c)).getLast? with _ | c
  · rw [List.getLast?_eq_none_iff] at hlast
    exact absurd hlast hne
  have hcmem : c ∈ files.filter (fun c => hasMainFile c) := by
    have h4 := List.getLast?_eq_getLast _ hne
    rw [hlast] at h4
    injection h4 with hv
    rw [hv]
    exact List.getLast_mem hne
  have hcmain : hasMainFile c = true := (List.mem_filter.mp hcmem).2
  rcases hm : findMain (fileBody c) with _ | n
  · simp [hasMainFile, hm] at hcmain
  have hmain := foldl_extract_main files ⟨[], [], [], [], definedAll files⟩
  rw [hlast] at hmain
  simp only [Prod.mk.injEq] at hmain
  have hcontent : (mergeState files).mainClassContent = fileBody c := by
    unfold mergeState
    exact hmain.1
  have hname : (mergeState files).mainClassName = n := by
    unfold mergeState
    rw [hmain.2, hm]
    rfl
  have hfe : files.isEmpty = false := by
    cases files with
    | nil => simp at hne
    | cons a l => rfl
  have hbody_ne : fileBody c ≠ [] := findMain_arg_ne_nil hm
  have hname_ne : n ≠ [] := findMain_name_ne_nil hm
  have hc1 : (fileBody c).isEmpty = false := by
    cases hq : fileBody c with
    | nil => exact absurd hq hbody_ne
    | cons a l => rfl
  have hc2 : n.isEmpty = false := by
    cases hq : n with
    | nil => exact absurd hq hname_ne
    | cons a l => rfl
  have hok : mergeFilesModel true files =
      .ok (joinWith (str "\n\n")
        (sortImports (mergeState files).imports ++ [[]] ++
          (mergeState files).otherClasses ++ [[]] ++ [(mergeState files).mainClassContent])) := by
    unfold mergeFilesModel
    rw [hfe]
    simp only [Bool.not_true, Bool.false_eq_true, if_false]
    rw [hcontent, hname, hc1, hc2]
    simp [hcontent]
  refine ⟨c, _, rfl, hcontent, hok, ?_⟩
  rw [hcontent]
  exact joinWith_append_singleton (str "\n\n") _ (fileBody c)

/-- Witness for C4 at a concrete input with two entry-point files. -/
theorem merge_last_entry_point_wins_witness :
    ∃ c out,
      ([str "public class A \x7b public static void main(String[] x) \x7b \x7d \x7d",
        str "public class B \x7b public static void main(String[] x) \x7b \x7d \x7d"].filter
          (fun c => hasMainFile c)).getLast? = some c ∧
      (mergeState [str "public class A \x7b public static void main(String[] x) \x7b \x7d \x7d",
        str "public class B \x7b public static void main(String[] x) \x7b \x7d \x7d"]).mainClassContent = fileBody c ∧
      mergeFilesModel true [str "public class A \x7b public static void main(String[] x) \x7b \x7d \x7d",
        str "public class B \x7b public static void main(String[] x) \x7b \x7d \x7d"] = .ok out ∧
      ∃ pre, out = pre ++ fileBody c :=
  merge_last_entry_point_wins _ (by decide)

/-! ### Import-set lemmas -/

lemma mem_addSet {l : List Str} {x y : Str} :
    y ∈ addSet l x ↔ y ∈ l ∨ y = x := by
  unfold addSet
  by_cases h : x ∈ l
  · simp only [h, if_true]
    constructor
    · exact Or.inl
    · rintro (hy | rfl)
      · exact hy
      · exact h
  · simp [h]

lemma nodup_addSet {l : List Str} {x : Str} (h : l.Nodup) : (addSet l x).Nodup := by
  unfold addSet
  by_cases hx : x ∈ l
  · simp [hx, h]
  · simp [hx, h, List.nodup_append, List.disjoint_singleton]

lemma mem_addNames {l ns : List Str} {x : Str} :
    x ∈ addNames l ns ↔ x ∈ l ∨ x ∈ ns := by
  induction ns generalizing l with
  | nil => simp [addNames]
  | cons n ns ih =>
    unfold addNames at ih ⊢
    rw [List.foldl_cons, ih, mem_addSet]
    simp only [List.mem_cons]
    tauto

lemma addNames_of_subset {l ns : List Str} (h : ∀ n ∈ ns, n ∈ l) :
    addNames l ns = l := by
  induction ns generalizing l with
  | nil => rfl
  | cons n ns ih =>
    unfold addNames at ih ⊢
    rw [List.foldl_cons]
    have h1 : addSet l n = l := by
      unfold addSet
      simp [h n (List.mem_cons_self n ns)]
    rw [h1]
    exact ih (fun x hx => h x (List.mem_cons_of_mem n hx))

lemma mem_foldl_addSet {ls : List Str} {acc : List Str} {x : Str} :
    x ∈ ls.foldl addSet acc ↔ x ∈ acc ∨ x ∈ ls := by
  induction ls generalizing acc with
  | nil => simp
  | cons a ls ih =>
    rw [List.foldl_cons, ih, mem_addSet]
    simp only [List.mem_cons]
    tauto

lemma nodup_foldl_addSet {ls acc : List Str} (h : acc.Nodup) :
    (ls.foldl addSet acc).Nodup := by
  induction ls generalizing acc with
  | nil => exact h
  | cons a ls ih => exact ih (nodup_addSet h)

lemma mem_definedAll {files : List Str} {n : Str} :
    n ∈ definedAll files ↔ ∃ f ∈ files, n ∈ classNamesOf f := by
  unfold definedAll
  suffices h : ∀ acc : List Str, n ∈ files.foldl (fun acc c => addNames acc (classNamesOf c)) acc ↔
      n ∈ acc ∨ ∃ f ∈ files, n ∈ classNamesOf f by
    rw [h []]
    simp
  induction files with
  | nil => simp
  | cons f fs ih =>
    intro acc
    rw [List.foldl_cons, ih, mem_addNames]
    simp only [List.mem_cons]
    constructor
    · rintro ((h | h) | ⟨g, hg, hn⟩)
      · exact Or.inl h
      · exact Or.inr ⟨f, Or.inl rfl, h⟩
      · exact Or.inr ⟨g, Or.inr hg, hn⟩
    · rintro (h | ⟨g, (rfl | hg), hn⟩)
      · exact Or.inl (Or.inl h)
      · exact Or.inl (Or.inr hn)
      · exact Or.inr ⟨g, hg, hn⟩

/-- During pass 2 every file's class names are already in
`definedClasses`, so the set stays literally unchanged and every
file has its import lines filtered against the full set. -/
lemma foldl_extract_imports (fs : List Str) (st : MState)
    (hdef : ∀ f ∈ fs, ∀ n ∈ classNamesOf f, n ∈ st.definedClasses) :
    (fs.foldl extractFileContent st).definedClasses = st.definedClasses ∧
    (∀ l, l ∈ (fs.foldl extractFileContent st).imports ↔
      l ∈ st.imports ∨ ∃ f ∈ fs, l ∈ keptImportsOf st.definedClasses f) ∧
    (st.imports.Nodup → (fs.foldl extractFileContent st).imports.Nodup) := by
  induction fs generalizing st with
  | nil => simp
  | cons f fs ih =>
    have hdf : addNames st.definedClasses (classNamesOf f) = st.definedClasses :=
      addNames_of_subset (hdef f (List.mem_cons_self f fs))
    have hstep_def : (extractFileContent st f).definedClasses = st.definedClasses := by
      rw [extract_definedClasses, hdf]
    have hstep_imp : (extractFileContent st f).imports =
        (keptImportsOf st.definedClasses f).foldl addSet st.imports := by
      rw [extract_imports, hdf]
    have hdef' : ∀ g ∈ fs, ∀ n ∈ classNamesOf g, n ∈ (extractFileContent st f).definedClasses := by
      rw [hstep_def]
      exact fun g hg => hdef g (List.mem_cons_of_mem f hg)
    obtain ⟨ih1, ih2, ih3⟩ := ih (extractFileContent st f) hdef'
    rw [List.foldl_cons]
    refine ⟨ih1.trans hstep_def, ?_, ?_⟩
    · intro l
      rw [ih2 l, hstep_imp, hstep_def, mem_foldl_addSet]
      constructor
      · rintro ((h | h) | ⟨g, hg, hk⟩)
        · exact Or.inl h
        · exact Or.inr ⟨f, List.mem_cons_self f fs, h⟩
        · exact Or.inr ⟨g, List.mem_cons_of_mem f hg, hk⟩
      · rintro (h | ⟨g, hg, hk⟩)
        · exact Or.inl (Or.inl h)
        · rcases List.mem_cons.mp hg with rfl | hg'
          · exact Or.inl (Or.inr hk)
          · exact Or.inr ⟨g, hg', hk⟩
    · intro hnd
      refine ih3 ?_
      rw [hstep_imp]
      exact nodup_foldl_addSet hnd

lemma mergeState_imports_mem (files : List Str) :
    ∀ l, l ∈ (mergeState files).imports ↔
      ∃ f ∈ files, l ∈ keptImportsOf (definedAll files) f := by
  intro l
  have hdef : ∀ f ∈ files, ∀ n ∈ classNamesOf f,
      n ∈ (MState.mk [] [] [] [] (definedAll files)).definedClasses := by
    intro f hf n hn
    exact mem_definedAll.mpr ⟨f, hf, hn⟩
  obtain ⟨-, h2, -⟩ := foldl_extract_imports files ⟨[], [], [], [], definedAll files⟩ hdef
  unfold mergeState
  rw [h2 l]
  simp

lemma mergeState_imports_nodup (files : List Str) :
    (mergeState files).imports.Nodup := by
  have hdef : ∀ f ∈ files, ∀ n ∈ classNamesOf f,
      n ∈ (MState.mk [] [] [] [] (definedAll files)).definedClasses := by
    intro f hf n hn
    exact mem_definedAll.mpr ⟨f, hf, hn⟩
  obtain ⟨-, -, h3⟩ := foldl_extract_imports files ⟨[], [], [], [], definedAll files⟩ hdef
  exact h3 List.nodup_nil

/-! ### The sorted import block -/

lemma sortImports_sorted (l : List Str) :
    (sortImports l).Sorted (fun a b : Str => a ≤ b) :=
  List.sorted_insertionSort _ l

lemma sortImports_perm (l : List Str) : List.Perm (sortImports l) l :=
  List.perm_insertionSort _ l

lemma mem_sortImports {l : List Str} {x : Str} : x ∈ sortImports l ↔ x ∈ l :=
  (sortImports_perm l).mem_iff

lemma sortImports_nodup {l : List Str} (h : l.Nodup) : (sortImports l).Nodup :=
  (sortImports_perm l).nodup_iff.mpr h

/-- Inversion of a successful merge: the written text is the assembled
final content. -/
lemma mergeFilesModel_ok_inv {files : List Str} {out : Str}
    (h : mergeFilesModel true files = .ok out) :
    out = joinWith (str "\n\n")
      (sortImports (mergeState files).imports ++ [[]] ++
        (mergeState files).otherClasses ++ [[]] ++ [(mergeState files).mainClassContent]) := by
  unfold mergeFilesModel at h
  simp only [Bool.not_true, Bool.false_eq_true, if_false] at h
  cases hf : files.isEmpty <;> rw [hf] at h
  · simp only [Bool.false_eq_true, if_false] at h
    by_cases hc : ((mergeState files).mainClassContent.isEmpty ||
        (mergeState files).mainClassName.isEmpty) = true
    · rw [if_pos hc] at h
      cases h
    · rw [if_neg hc] at h
      injection h with h
      exact h.symm
  · simp at h

/-- C6: in the output of every successful merge the import block
consists of the kept import lines with duplicates removed, arranged in
lexicographic order; any input whose kept imports form the same set
yields the identical block, so the input order of imports is
irrelevant. -/
theorem merge_import_block_sorted (files : List Str) (out : Str)
    (h : mergeFilesModel true files = .ok out) :
    ∃ block : List Str,
      out = joinWith (str "\n\n") (block ++ [[]] ++
        (mergeState files).otherClasses ++ [[]] ++ [(mergeState files).mainClassContent]) ∧
      block.Sorted (fun a b : Str => a ≤ b) ∧
      block.Nodup ∧
      (∀ l, l ∈ block ↔ ∃ f ∈ files, l ∈ keptImportsOf (definedAll files) f) ∧
      (∀ files' : List Str,
        (∀ l, (∃ f ∈ files', l ∈ keptImportsOf (definedAll files') f) ↔
              (∃ f ∈ files, l ∈ keptImportsOf (definedAll files) f)) →
        sortImports (mergeState files').imports = block) := by
  refine ⟨sortImports (mergeState files).imports, mergeFilesModel_ok_inv h, sortImports_sorted _,
    sortImports_nodup (mergeState_imports_nodup files), ?_, ?_⟩
  · intro l
    rw [mem_sortImports]
    exact mergeState_imports_mem files l
  · intro files' hsame
    refine List.eq_of_perm_of_sorted ?_ (sortImports_sorted _) (sortImports_sorted _)
    rw [List.perm_ext_iff_of_nodup (sortImports_nodup (mergeState_imports_nodup files'))
      (sortImports_nodup (mergeState_imports_nodup files))]
    intro l
    rw [mem_sortImports, mem_sortImports, mergeState_imports_mem files' l,
      mergeState_imports_mem files l]
    exact hsame l

def c6files : List Str :=
  [str "import b.B;\nclass X \x7b \x7d",
   str "import a.A;\nimport b.B;\npublic class M \x7b public static void main(String[] z) \x7b \x7d \x7d"]

/-- Witness for C6 at a concrete input holding a duplicated,
unsorted import pair. -/
theorem merge_import_block_sorted_witness :
    ∃ block : List Str,
      (mergeOutput true c6files).getD [] = joinWith (str "\n\n") (block ++ [[]] ++
        (mergeState c6files).otherClasses ++ [[]] ++ [(mergeState c6files).mainClassContent]) ∧
      block.Sorted (fun a b : Str => a ≤ b) ∧
      block.Nodup ∧
      (∀ l, l ∈ block ↔ ∃ f ∈ c6files, l ∈ keptImportsOf (definedAll c6files) f) ∧
      (∀ files' : List Str,
        (∀ l, (∃ f ∈ files', l ∈ keptImportsOf (definedAll files') f) ↔
              (∃ f ∈ c6files, l ∈ keptImportsOf (definedAll c6files) f)) →
        sortImports (mergeState files').imports = block) :=
  merge_import_block_sorted c6files ((mergeOutput true c6files).getD []) (by decide)

/-- C5: when a simple type name is both captured by the import regex on
some input line and defined as a type among the merged files, the
merged import block has no line whose imported simple name is that name
(pass 2 drops every such line, the set being complete before pass 2). -/
theorem merge_self_import_pruned (files : List Str) (name out : Str)
    (hdef : name ∈ definedAll files)
    (himp : ∃ f ∈ files, ∃ il ∈ importLinesOf f, importSimpleName (trimStr il) = some name)
    (h : mergeFilesModel true files = .ok out) :
    out = joinWith (str "\n\n") (sortImports (mergeState files).imports ++ [[]] ++
      (mergeState files).otherClasses ++ [[]] ++ [(mergeState files).mainClassContent]) ∧
    ∀ l ∈ sortImports (mergeState files).imports, importSimpleName l ≠ some name := by
  refine ⟨mergeFilesModel_ok_inv h, ?_⟩
  intro l hl
  rw [mem_sortImports] at hl
  obtain ⟨f, hf, hk⟩ := (mergeState_imports_mem files l).mp hl
  unfold keptImportsOf at hk
  rw [List.mem_filterMap] at hk
  obtain ⟨il, hil, hkeep⟩ := hk
  simp only [keepImport] at hkeep
  rcases hfm : findImportMatch (trimStr il) with _ | pr <;> rw [hfm] at hkeep <;> dsimp only at hkeep
  · injection hkeep with hkeep
    rw [← hkeep]
    unfold importSimpleName
    rw [hfm]
    simp
  · by_cases hmem : pr.2 ∈ definedAll files
    · rw [if_pos hmem] at hkeep
      cases hkeep
    · rw [if_neg hmem] at hkeep
      injection hkeep with hkeep
      rw [← hkeep]
      unfold importSimpleName
      rw [hfm]
      intro hcontra
      simp only [Option.map_some', Option.some.injEq] at hcontra
      rw [hcontra] at hmem
      exact hmem hdef

def c5files : List Str :=
  [str "import a.Helper;\nclass Helper \x7b \x7d",
   str "public class M \x7b public static void main(String[] z) \x7b \x7d \x7d"]

/-- Witness for C5 at a concrete input importing a locally defined
name. -/
theorem merge_self_import_pruned_witness :
    (mergeOutput true c5files).getD [] = joinWith (str "\n\n")
      (sortImports (mergeState c5files).imports ++ [[]] ++
        (mergeState c5files).otherClasses ++ [[]] ++ [(mergeState c5files).mainClassContent]) ∧
    ∀ l ∈ sortImports (mergeState c5files).imports, importSimpleName l ≠ some (str "Helper") :=
  merge_self_import_pruned c5files (str "Helper") ((mergeOutput true c5files).getD [])
    (by decide) (by decide) (by decide)

/-! ### Line-splitting lemmas for counting public headers -/

lemma splitLines_nil : splitLines [] = [[]] := rfl

lemma splitLines_cons (c : Char) (t : Str) :
    splitLines (c :: t) =
      if c == '\n' then [] :: splitLines t
      else (c :: (splitLines t).headD []) :: (splitLines t).tail := rfl

lemma splitLines_ne_nil (s : Str) : splitLines s ≠ [] := by
  cases s with
  | nil => simp [splitLines_nil]
  | cons c t =>
    rw [splitLines_cons]
    by_cases hc : (c == '\n') = true
    · simp [hc]
    · simp [hc]

lemma splitLines_append (a b : Str) :
    splitLines (a ++ '\n' :: b) = splitLines a ++ splitLines b := by
  induction a with
  | nil =>
    show splitLines ('\n' :: b) = splitLines [] ++ splitLines b
    rw [splitLines_cons, splitLines_nil]
    simp
  | cons c a ih =>
    show splitLines (c :: (a ++ '\n' :: b)) = splitLines (c :: a) ++ splitLines b
    rw [splitLines_cons, splitLines_cons, ih]
    by_cases hc : (c == '\n') = true
    · simp [hc]
    · simp only [hc, Bool.false_eq_true, if_false]
      cases hsa : splitLines a with
      | nil => exact absurd hsa (splitLines_ne_nil a)
      | cons x xs => simp

lemma splitLines_eq_single {l : Str} (h : '\n' ∉ l) : splitLines l = [l] := by
  induction l with
  | nil => rfl
  | cons c t ih =>
    have hc : c ≠ '\n' := fun hh => h (hh ▸ List.mem_cons_self c t)
    have ht : '\n' ∉ t := fun hh => h (List.mem_cons_of_mem _ hh)
    have hb : (c == '\n') = false := by simp [hc]
    rw [splitLines_cons, hb]
    simp [ih ht]

lemma splitLines_no_newline {s : Str} : ∀ l ∈ splitLines s, '\n' ∉ l := by
  induction s with
  | nil =>
    intro l hl
    simp [splitLines_nil] at hl
    simp [hl]
  | cons c t ih =>
    intro l hl
    rw [splitLines_cons] at hl
    by_cases hc : (c == '\n') = true
    · rw [if_pos hc] at hl
      rcases List.mem_cons.mp hl with rfl | hl'
      · simp
      · exact ih l hl'
    · rw [if_neg (by simp [hc])] at hl
      have hcne : c ≠ '\n' := by simpa using hc
      cases hst : splitLines t with
      | nil => exact absurd hst (splitLines_ne_nil t)
      | cons x xs =>
        rw [hst] at hl
        simp only [List.headD_cons, List.tail_cons] at hl
        rcases List.mem_cons.mp hl with rfl | hl'
        · intro hmem
          rcases List.mem_cons.mp hmem with hh | hh
          · exact hcne hh.symm
          · exact ih x (hst ▸ List.mem_cons_self x xs) hh
        · exact ih l (hst ▸ List.mem_cons_of_mem x hl')

lemma isPublicHeaderLine_nil : isPublicHeaderLine [] = false := by decide

lemma countPub_append_newline (a b : Str) :
    countPub (a ++ '\n' :: b) = countPub a + countPub b := by
  unfold countPub
  rw [splitLines_append, List.filter_append, List.length_append]

lemma countPub_joinWith (parts : List Str) :
    countPub (joinWith (str "\n\n") parts) = (parts.map countPub).sum := by
  match parts with
  | [] => decide
  | [x] =>
    show countPub x = countPub x + 0
    omega
  | x :: y :: t =>
    show countPub (x ++ str "\n\n" ++ joinWith (str "\n\n") (y :: t)) = _
    have h1 : x ++ str "\n\n" ++ joinWith (str "\n\n") (y :: t) =
        x ++ '\n' :: ('\n' :: joinWith (str "\n\n") (y :: t)) := by
      simp [str]
    rw [h1, countPub_append_newline]
    have h2 : countPub ('\n' :: joinWith (str "\n\n") (y :: t)) =
        countPub ([] ++ '\n' :: joinWith (str "\n\n") (y :: t)) := rfl
    rw [h2, countPub_append_newline, countPub_joinWith (y :: t)]
    have h3 : countPub ([] : Str) = 0 := by decide
    rw [h3]
    simp [List.map_cons, List.sum_cons]

lemma isPrefixOf_append_self (p x : Str) : p.isPrefixOf (p ++ x) = true := by
  induction p with
  | nil => simp
  | cons c t ih => simpa [List.isPrefixOf_cons₂] using ih

lemma dropWhile_append_cases (p : Char → Bool) (A B : Str) :
    (A ++ B).dropWhile p =
      if (A.dropWhile p).isEmpty then B.dropWhile p else A.dropWhile p ++ B := by
  induction A with
  | nil => simp
  | cons c t ih =>
    by_cases hc : p c = true
    · rw [List.cons_append, List.dropWhile_cons, if_pos hc, List.dropWhile_cons, if_pos hc, ih]
    · have h1 : List.dropWhile p (c :: t) = c :: t := by
        rw [List.dropWhile_cons, if_neg (by simp [hc])]
      rw [List.cons_append, List.dropWhile_cons, if_neg (by simp [hc]), h1,
        if_neg (by simp)]
      simp

lemma str_import_eq : str "import" = ['i', 'm', 'p', 'o', 'r', 't'] := rfl

lemma trimStr_import_keeps_front {il : Str}
    (h : (str "import").isPrefixOf il = true) :
    (str "import").isPrefixOf (trimStr il) = true := by
  obtain ⟨t, rfl⟩ : ∃ t, il = str "import" ++ t :=
    ⟨il.drop (str "import").length, isPrefixOf_eq_append h⟩
  unfold trimStr
  have h1 : (str "import" ++ t).dropWhile isSpaceChar = str "import" ++ t := by
    rw [str_import_eq, List.cons_append, List.dropWhile_cons, if_neg (by decide)]
  rw [h1, List.reverse_append, dropWhile_append_cases]
  by_cases hcase : ((t.reverse).dropWhile isSpaceChar).isEmpty = true
  · rw [if_pos hcase]
    have h2 : ((str "import").reverse).dropWhile isSpaceChar = (str "import").reverse := by
      decide
    rw [h2, List.reverse_reverse]
    decide
  · rw [if_neg hcase, List.reverse_append, List.reverse_reverse]
    exact isPrefixOf_append_self _ _

lemma matchTypeHeader_import_none {l : Str}
    (h : (str "import").isPrefixOf l = true) : matchTypeHeader l = none := by
  obtain ⟨t, rfl⟩ : ∃ t, l = str "import" ++ t :=
    ⟨l.drop (str "import").length, isPrefixOf_eq_append h⟩
  rw [str_import_eq]
  show matchTypeHeader ('i' :: 'm' :: 'p' :: 'o' :: 'r' :: 't' :: t) = none
  unfold matchTypeHeader parseCore parseMods parseKind
  simp +decide [List.isPrefixOf, List.dropWhile, List.takeWhile, isSpaceChar]

lemma countPub_import_line {l : Str}
    (hpre : (str "import").isPrefixOf l = true) (hnl : '\n' ∉ l) :
    countPub l = 0 := by
  unfold countPub
  rw [splitLines_eq_single hnl]
  have hfalse : isPublicHeaderLine l = false := by
    unfold isPublicHeaderLine
    rw [matchTypeHeader_import_none hpre]
  simp [hfalse]

lemma keepImport_eq_trim {d : List Str} {il l : Str}
    (h : keepImport d il = some l) : l = trimStr il := by
  simp only [keepImport] at h
  rcases hfm : findImportMatch (trimStr il) with _ | pr <;> rw [hfm] at h <;> dsimp only at h
  · injection h with h
    exact h.symm
  · by_cases hmem : pr.2 ∈ d
    · rw [if_pos hmem] at h
      cases h
    · rw [if_neg hmem] at h
      injection h with h
      exact h.symm

lemma mem_trimStr {x : Char} {s : Str} (h : x ∈ trimStr s) : x ∈ s := by
  unfold trimStr at h
  rw [List.mem_reverse] at h
  have h1 := (List.dropWhile_sublist (l := (s.dropWhile isSpaceChar).reverse)
    (p := isSpaceChar)).subset h
  rw [List.mem_reverse] at h1
  exact (List.dropWhile_sublist (l := s) (p := isSpaceChar)).subset h1

lemma countPub_nil : countPub ([] : Str) = 0 := by decide

/-- C2 (amended): in a successful merge the number of public type
header lines of the output is the number in the entry-point body plus
the numbers in the stripped auxiliary bodies; in particular, when the
entry-point body carries exactly one public header and every stripped
auxiliary body carries none, the output carries exactly one. -/
theorem merge_public_count (files : List Str) (out : Str)
    (h : mergeFilesModel true files = .ok out)
    (hmain : countPub (mergeState files).mainClassContent = 1)
    (haux : ∀ o ∈ (mergeState files).otherClasses, countPub o = 0) :
    countPub out = 1 := by
  rw [mergeFilesModel_ok_inv h, countPub_joinWith]
  rw [List.map_append, List.map_append, List.map_append, List.map_append,
    List.sum_append, List.sum_append, List.sum_append, List.sum_append]
  have himp0 : (((sortImports (mergeState files).imports)).map countPub).sum = 0 := by
    apply List.sum_eq_zero
    intro x hx
    rw [List.mem_map] at hx
    obtain ⟨l, hl, rfl⟩ := hx
    rw [mem_sortImports] at hl
    obtain ⟨f, hf, hk⟩ := (mergeState_imports_mem files l).mp hl
    unfold keptImportsOf at hk
    rw [List.mem_filterMap] at hk
    obtain ⟨il, hil, hkeep⟩ := hk
    have hiltrim : l = trimStr il := keepImport_eq_trim hkeep
    have hpre_il : (str "import").isPrefixOf il = true := by
      have := (List.mem_filter.mp hil).2
      simpa using this
    have hnl : '\n' ∉ il := by
      have h1 : il ∈ fileLines f := (List.mem_filter.mp hil).1
      have h2 : il ∈ splitLines f := (List.mem_filter.mp h1).1
      exact splitLines_no_newline il h2
    subst hiltrim
    exact countPub_import_line (trimStr_import_keeps_front hpre_il)
      (fun hm => hnl (mem_trimStr hm))
  have haux0 : ((mergeState files).otherClasses.map countPub).sum = 0 := by
    apply List.sum_eq_zero
    intro x hx
    rw [List.mem_map] at hx
    obtain ⟨o, ho, rfl⟩ := hx
    exact haux o ho
  rw [himp0, haux0]
  simp [countPub_nil, hmain]

def c2cexfiles : List Str :=
  [str "public class A\x7b\x7d\npublic class B\x7b\npublic static void main(String[] z)\x7b\x7d\n\x7d"]

/-- C2 counterexample: a single input file holding two public classes,
the second containing the main signature, merges successfully into an
output with two public type header lines -- not exactly one, refuting
the claim as stated (the entry-point body is copied verbatim, so every
public type it contains stays public). -/
theorem merge_public_count_counterexample :
    (mergeOutput true c2cexfiles).map countPub = some 2 := by decide

def c2wfiles : List Str :=
  [str "class A \x7b \x7d",
   str "public class B \x7b\npublic static void main(String[] z) \x7b \x7d\n\x7d"]

/-- Witness for the amended C2 at a concrete input. -/
theorem merge_public_count_witness :
    countPub ((mergeOutput true c2wfiles).getD []) = 1 :=
  merge_public_count c2wfiles ((mergeOutput true c2wfiles).getD [])
    (by decide) (by decide) (by decide)

/-! ### Structural facts about the header parsers -/

lemma isWordChar_not_space {c : Char} (h : isWordChar c = true) : isSpaceChar c = false := by
  by_contra hs
  simp only [Bool.not_eq_false] at hs
  simp only [isSpaceChar, Bool.or_eq_true, beq_iff_eq] at hs
  rcases hs with ((((rfl | rfl) | rfl) | rfl) | rfl) | rfl <;> exact absurd h (by decide)

lemma takeWhile_nil_dropWhile_self {p : Char → Bool} {B : Str}
    (h : B.takeWhile p = []) : B.dropWhile p = B := by
  cases B with
  | nil => rfl
  | cons c t =>
    rw [List.takeWhile_cons] at h
    by_cases hc : p c = true
    · simp [hc] at h
    · rw [List.dropWhile_cons, if_neg (by simp [hc])]

lemma run_extract (p : Char → Bool) (A B : Str) (hA : ∀ c ∈ A, p c = true)
    (hB : B.takeWhile p = []) :
    (A ++ B).takeWhile p = A ∧ (A ++ B).dropWhile p = B := by
  induction A with
  | nil => exact ⟨hB, takeWhile_nil_dropWhile_self hB⟩
  | cons c t ih =>
    have hc : p c = true := hA c (List.mem_cons_self c t)
    have ht : ∀ x ∈ t, p x = true := fun x hx => hA x (List.mem_cons_of_mem c hx)
    obtain ⟨ih1, ih2⟩ := ih ht
    constructor
    · rw [List.cons_append, List.takeWhile_cons, if_pos hc, ih1]
    · rw [List.cons_append, List.dropWhile_cons, if_pos hc, ih2]

lemma takeWhile_nil_append {p : Char → Bool} {A B : Str}
    (hA : A.takeWhile p = []) (hB : B.takeWhile p = []) :
    (A ++ B).takeWhile p = [] := by
  cases A with
  | nil => exact hB
  | cons c t =>
    rw [List.takeWhile_cons] at hA
    by_cases hc : p c = true
    · simp [hc] at hA
    · rw [List.cons_append, List.takeWhile_cons, if_neg (by simp [hc])]

lemma takeWhile_dropWhile_nil (p : Char → Bool) (l : Str) :
    ((l.dropWhile p).takeWhile p) = [] := by
  induction l with
  | nil => rfl
  | cons c t ih =>
    rw [List.dropWhile_cons]
    by_cases hc : p c = true
    · rw [if_pos hc]
      exact ih
    · rw [if_neg (by simp [hc]), List.takeWhile_cons, if_neg (by simp [hc])]

lemma ws1_elim {s w r : Str} (h : ws1 s = some (w, r)) :
    s = w ++ r ∧ w ≠ [] ∧ (∀ c ∈ w, isSpaceChar c = true) ∧ r.takeWhile isSpaceChar = [] := by
  unfold ws1 at h
  by_cases he : (s.takeWhile isSpaceChar).isEmpty = true
  · rw [if_pos he] at h
    cases h
  · rw [if_neg he] at h
    injection h with h
    injection h with h1 h2
    refine ⟨?_, ?_, ?_, ?_⟩
    · rw [← h1, ← h2, List.takeWhile_append_dropWhile]
    · intro hw
      rw [← h1] at hw
      simp [hw, List.isEmpty] at he
    · intro c hc
      rw [← h1] at hc
      exact List.mem_takeWhile_imp hc
    · rw [← h2]
      exact takeWhile_dropWhile_nil _ _

lemma word1_elim {s n r : Str} (h : word1 s = some (n, r)) :
    s = n ++ r ∧ n ≠ [] ∧ (∀ c ∈ n, isWordChar c = true) ∧ r.takeWhile isWordChar = [] := by
  unfold word1 at h
  by_cases he : (s.takeWhile isWordChar).isEmpty = true
  · rw [if_pos he] at h
    cases h
  · rw [if_neg he] at h
    injection h with h
    injection h with h1 h2
    refine ⟨?_, ?_, ?_, ?_⟩
    · rw [← h1, ← h2, List.takeWhile_append_dropWhile]
    · intro hw
      rw [← h1] at hw
      simp [hw, List.isEmpty] at he
    · intro c hc
      rw [← h1] at hc
      exact List.mem_takeWhile_imp hc
    · rw [← h2]
      exact takeWhile_dropWhile_nil _ _

lemma parseKind_elim {s k r : Str} (h : parseKind s = some (k, r)) :
    s = k ++ r ∧ (k = str "class" ∨ k = str "interface" ∨ k = str "enum") := by
  unfold parseKind at h
  by_cases h1 : (str "class").isPrefixOf s = true
  · rw [if_pos h1] at h
    injection h with h
    injection h with hk hr
    refine ⟨?_, Or.inl hk.symm⟩
    rw [← hk, ← hr]
    exact isPrefixOf_eq_append h1
  · rw [if_neg h1] at h
    by_cases h2 : (str "interface").isPrefixOf s = true
    · rw [if_pos h2] at h
      injection h with h
      injection h with hk hr
      refine ⟨?_, Or.inr (Or.inl hk.symm)⟩
      rw [← hk, ← hr]
      exact isPrefixOf_eq_append h2
    · rw [if_neg h2] at h
      by_cases h3 : (str "enum").isPrefixOf s = true
      · rw [if_pos h3] at h
        injection h with h
        injection h with hk hr
        refine ⟨?_, Or.inr (Or.inr hk.symm)⟩
        rw [← hk, ← hr]
        exact isPrefixOf_eq_append h3
      · rw [if_neg h3] at h
        cases h

lemma parseMods_cases {s m s1 : Str} (h : parseMods s = (m, s1)) :
    (m = [] ∧ s1 = s) ∨
    (∃ w', m = str "abstract" ++ w' ∧ s = (str "abstract" ++ w') ++ s1 ∧ w' ≠ [] ∧
      (∀ c ∈ w', isSpaceChar c = true)) ∨
    (∃ w', m = str "final" ++ w' ∧ s = (str "final" ++ w') ++ s1 ∧ w' ≠ [] ∧
      (∀ c ∈ w', isSpaceChar c = true)) := by
  unfold parseMods at h
  by_cases hA : (str "abstract").isPrefixOf s = true
  · rw [if_pos hA] at h
    by_cases hw : ((s.drop 8).takeWhile isSpaceChar).isEmpty = true
    · rw [if_pos hw] at h
      injection h with h1 h2
      exact Or.inl ⟨h1.symm, h2.symm⟩
    · rw [if_neg hw] at h
      injection h with h1 h2
      refine Or.inr (Or.inl ⟨(s.drop 8).takeWhile isSpaceChar, h1.symm, ?_, ?_, ?_⟩)
      · have hs8 : s = str "abstract" ++ s.drop 8 := by
          have := isPrefixOf_eq_append hA
          simpa [str] using this
        conv_lhs => rw [hs8]
        rw [← h2, List.append_assoc, List.takeWhile_append_dropWhile]
      · intro hemp
        rw [hemp] at hw
        simp [List.isEmpty] at hw
      · intro c hc
        exact List.mem_takeWhile_imp hc
  · rw [if_neg hA] at h
    by_cases hF : (str "final").isPrefixOf s = true
    · rw [if_pos hF] at h
      by_cases hw : ((s.drop 5).takeWhile isSpaceChar).isEmpty = true
      · rw [if_pos hw] at h
        injection h with h1 h2
        exact Or.inl ⟨h1.symm, h2.symm⟩
      · rw [if_neg hw] at h
        injection h with h1 h2
        refine Or.inr (Or.inr ⟨(s.drop 5).takeWhile isSpaceChar, h1.symm, ?_, ?_, ?_⟩)
        · have hs5 : s = str "final" ++ s.drop 5 := by
            have := isPrefixOf_eq_append hF
            simpa [str] using this
          conv_lhs => rw [hs5]
          rw [← h2, List.append_assoc, List.takeWhile_append_dropWhile]
        · intro hemp
          rw [hemp] at hw
          simp [List.isEmpty] at hw
        · intro c hc
          exact List.mem_takeWhile_imp hc
    · rw [if_neg hF] at h
      injection h with h1 h2
      exact Or.inl ⟨h1.symm, h2.symm⟩

lemma str_class_eq : str "class" = ['c', 'l', 'a', 's', 's'] := rfl
lemma str_interface_eq : str "interface" = ['i', 'n', 't', 'e', 'r', 'f', 'a', 'c', 'e'] := rfl
lemma str_enum_eq : str "enum" = ['e', 'n', 'u', 'm'] := rfl
lemma str_abstract_eq : str "abstract" = ['a', 'b', 's', 't', 'r', 'a', 'c', 't'] := rfl
lemma str_final_eq : str "final" = ['f', 'i', 'n', 'a', 'l'] := rfl
lemma str_public_eq : str "public" = ['p', 'u', 'b', 'l', 'i', 'c'] := rfl

lemma isPrefixOf_cons_of_ne {a b : Char} {p t : Str} (h : (a == b) = false) :
    (a :: p).isPrefixOf (b :: t) = false := by
  rw [List.isPrefixOf_cons₂, h, Bool.false_and]

/-- The shape of a modifiers capture. -/
def ModsShape (m : Str) : Prop :=
  m = [] ∨ (∃ w', (m = str "abstract" ++ w' ∨ m = str "final" ++ w') ∧ w' ≠ [] ∧
    ∀ c ∈ w', isSpaceChar c = true)

/-- The shape of a kind capture. -/
def KindShape (k : Str) : Prop :=
  k = str "class" ∨ k = str "interface" ∨ k = str "enum"

lemma takeWhile_space_nil_of_kind_start {Z : Str}
    (hZ : ∃ k Z', KindShape k ∧ Z = k ++ Z') :
    Z.takeWhile isSpaceChar = [] := by
  obtain ⟨k, Z', hk, rfl⟩ := hZ
  rcases hk with rfl | rfl | rfl
  · rw [str_class_eq, List.cons_append, List.takeWhile_cons, if_neg (by decide)]
  · rw [str_interface_eq, List.cons_append, List.takeWhile_cons, if_neg (by decide)]
  · rw [str_enum_eq, List.cons_append, List.takeWhile_cons, if_neg (by decide)]

lemma takeWhile_space_nil_of_word {n r : Str} (hn : n ≠ [])
    (hw : ∀ c ∈ n, isWordChar c = true) :
    (n ++ r).takeWhile isSpaceChar = [] := by
  cases n with
  | nil => exact absurd rfl hn
  | cons c t =>
    rw [List.cons_append, List.takeWhile_cons,
      if_neg (by simp [isWordChar_not_space (hw c (List.mem_cons_self c t))])]

lemma parseKind_build {k Z : Str} (hk : KindShape k) : parseKind (k ++ Z) = some (k, Z) := by
  rcases hk with rfl | rfl | rfl
  · unfold parseKind
    rw [if_pos (isPrefixOf_append_self _ _)]
    rw [List.drop_left' (by decide)]
  · unfold parseKind
    rw [str_interface_eq, List.cons_append, str_class_eq,
      isPrefixOf_cons_of_ne (by decide)]
    rw [if_neg (by simp), ← List.cons_append, ← str_interface_eq,
      if_pos (isPrefixOf_append_self _ _)]
    rw [List.drop_left' (by decide)]
  · unfold parseKind
    rw [str_enum_eq, List.cons_append, str_class_eq, isPrefixOf_cons_of_ne (by decide)]
    rw [if_neg (by simp), str_interface_eq, isPrefixOf_cons_of_ne (by decide)]
    rw [if_neg (by simp), ← List.cons_append, ← str_enum_eq,
      if_pos (isPrefixOf_append_self _ _)]
    rw [List.drop_left' (by decide)]

lemma parseMods_kind_start {Z : Str} (hZ : ∃ k Z', KindShape k ∧ Z = k ++ Z') :
    parseMods Z = ([], Z) := by
  obtain ⟨k, Z', hk, rfl⟩ := hZ
  rcases hk with rfl | rfl | rfl
  · unfold parseMods
    rw [str_class_eq, List.cons_append, str_abstract_eq, isPrefixOf_cons_of_ne (by decide)]
    rw [if_neg (by simp), str_final_eq, isPrefixOf_cons_of_ne (by decide), if_neg (by simp)]
  · unfold parseMods
    rw [str_interface_eq, List.cons_append, str_abstract_eq, isPrefixOf_cons_of_ne (by decide)]
    rw [if_neg (by simp), str_final_eq, isPrefixOf_cons_of_ne (by decide), if_neg (by simp)]
  · unfold parseMods
    rw [str_enum_eq, List.cons_append, str_abstract_eq, isPrefixOf_cons_of_ne (by decide)]
    rw [if_neg (by simp), str_final_eq, isPrefixOf_cons_of_ne (by decide), if_neg (by simp)]

lemma parseMods_build {m Z : Str} (hm : ModsShape m)
    (hZ : ∃ k Z', KindShape k ∧ Z = k ++ Z') :
    parseMods (m ++ Z) = (m, Z) := by
  rcases hm with rfl | ⟨w', hmw, hw'ne, hw'sp⟩
  · rw [List.nil_append]
    exact parseMods_kind_start hZ
  · have hZsp : Z.takeWhile isSpaceChar = [] := takeWhile_space_nil_of_kind_start hZ
    have hrun := run_extract isSpaceChar w' Z hw'sp hZsp
    have hw'ie : ((w' ++ Z).takeWhile isSpaceChar).isEmpty = false := by
      rw [hrun.1]
      cases w' with
      | nil => exact absurd rfl hw'ne
      | cons a b => rfl
    rcases hmw with rfl | rfl
    · unfold parseMods
      rw [List.append_assoc]
      rw [if_pos (isPrefixOf_append_self _ _)]
      rw [List.drop_left' (by decide)]
      dsimp only
      rw [hw'ie, if_neg (by simp), hrun.1, hrun.2]
    · unfold parseMods
      rw [List.append_assoc]
      have hnotA : (str "abstract").isPrefixOf (str "final" ++ (w' ++ Z)) = false := by
        rw [str_final_eq, List.cons_append, str_abstract_eq, isPrefixOf_cons_of_ne (by decide)]
      rw [hnotA]
      rw [if_neg (by simp), if_pos (isPrefixOf_append_self _ _)]
      rw [List.drop_left' (by decide)]
      dsimp only
      rw [hw'ie, if_neg (by simp), hrun.1, hrun.2]

lemma ws1_build {w Y : Str} (hw : w ≠ []) (hws : ∀ c ∈ w, isSpaceChar c = true)
    (hY : Y.takeWhile isSpaceChar = []) : ws1 (w ++ Y) = some (w, Y) := by
  have hrun := run_extract isSpaceChar w Y hws hY
  unfold ws1
  rw [hrun.1, hrun.2]
  cases w with
  | nil => exact absurd rfl hw
  | cons a b => rfl

lemma word1_build {n Y : Str} (hn : n ≠ []) (hnw : ∀ c ∈ n, isWordChar c = true)
    (hY : Y.takeWhile isWordChar = []) : word1 (n ++ Y) = some (n, Y) := by
  have hrun := run_extract isWordChar n Y hnw hY
  unfold word1
  rw [hrun.1, hrun.2]
  cases n with
  | nil => exact absurd rfl hn
  | cons a b => rfl

/-- Forward reconstruction of `parseCore` on a well-shaped
decomposition. -/
lemma parseCore_build {m k w n r : Str} (hm : ModsShape m) (hk : KindShape k)
    (hw : w ≠ []) (hws : ∀ c ∈ w, isSpaceChar c = true)
    (hn : n ≠ []) (hnw : ∀ c ∈ n, isWordChar c = true)
    (hr : r.takeWhile isWordChar = []) :
    parseCore (m ++ (k ++ (w ++ (n ++ r)))) = some (m, k, w, n, r) := by
  have h1 : parseMods (m ++ (k ++ (w ++ (n ++ r)))) = (m, k ++ (w ++ (n ++ r))) :=
    parseMods_build hm ⟨k, w ++ (n ++ r), hk, rfl⟩
  have h2 : parseKind (k ++ (w ++ (n ++ r))) = some (k, w ++ (n ++ r)) := parseKind_build hk
  have h3 : ws1 (w ++ (n ++ r)) = some (w, n ++ r) :=
    ws1_build hw hws (takeWhile_space_nil_of_word hn hnw)
  have h4 : word1 (n ++ r) = some (n, r) := word1_build hn hnw hr
  unfold parseCore
  rw [h1]
  dsimp only
  rw [h2]
  dsimp only
  rw [h3]
  dsimp only
  rw [h4]

/-- Full elimination of a successful `parseCore`. -/
lemma parseCore_elim {s m k w n r : Str} (h : parseCore s = some (m, k, w, n, r)) :
    s = m ++ (k ++ (w ++ (n ++ r))) ∧ ModsShape m ∧ KindShape k ∧
    w ≠ [] ∧ (∀ c ∈ w, isSpaceChar c = true) ∧
    n ≠ [] ∧ (∀ c ∈ n, isWordChar c = true) ∧
    r.takeWhile isWordChar = [] := by
  unfold parseCore at h
  rcases hmods : parseMods s with ⟨m', s1⟩
  rw [hmods] at h
  dsimp only at h
  rcases hkind : parseKind s1 with _ | ⟨k', s2⟩ <;> rw [hkind] at h <;> dsimp only at h
  · cases h
  rcases hws : ws1 s2 with _ | ⟨w', s3⟩ <;> rw [hws] at h <;> dsimp only at h
  · cases h
  rcases hword : word1 s3 with _ | ⟨n', s4⟩ <;> rw [hword] at h <;> dsimp only at h
  · cases h
  injection h with h
  simp only [Prod.mk.injEq] at h
  obtain ⟨hm', hk', hw', hn', hs4⟩ := h
  rw [hm'] at hmods
  rw [hk'] at hkind
  rw [hw'] at hws
  rw [hn', hs4] at hword
  obtain ⟨hk1, hk2⟩ := parseKind_elim hkind
  obtain ⟨hw1, hw2, hw3, -⟩ := ws1_elim hws
  obtain ⟨hn1, hn2, hn3, hn4⟩ := word1_elim hword
  have hshape : ModsShape m ∧ s = m ++ s1 := by
    rcases parseMods_cases hmods with ⟨rfl, rfl⟩ | ⟨w0, rfl, hseq, hne, hsp⟩ | ⟨w0, rfl, hseq, hne, hsp⟩
    · exact ⟨Or.inl rfl, rfl⟩
    · refine ⟨Or.inr ⟨w0, Or.inl rfl, hne, hsp⟩, ?_⟩
      rw [hseq]
    · refine ⟨Or.inr ⟨w0, Or.inr rfl, hne, hsp⟩, ?_⟩
      rw [hseq]
  refine ⟨?_, hshape.1, hk2, hw2, hw3, hn2, hn3, hn4⟩
  rw [hshape.2, hk1, hw1, hn1]

/-- `parseCore` is stable under appending text that starts with a
non-word character. -/
lemma parseCore_append {s X m k w n r : Str} (h : parseCore s = some (m, k, w, n, r))
    (hX : X.takeWhile isWordChar = []) :
    parseCore (s ++ X) = some (m, k, w, n, r ++ X) := by
  obtain ⟨hdec, hm, hk, hw, hws, hn, hnw, hr⟩ := parseCore_elim h
  rw [hdec]
  have : m ++ (k ++ (w ++ (n ++ r))) ++ X = m ++ (k ++ (w ++ (n ++ (r ++ X)))) := by
    simp [List.append_assoc]
  rw [this]
  exact parseCore_build hm hk hw hws hn hnw (takeWhile_nil_append hr hX)

lemma parseCore_not_public {s m k w n r : Str} (h : parseCore s = some (m, k, w, n, r)) :
    (str "public").isPrefixOf s = false := by
  obtain ⟨hdec, hm, hk, -, -, -, -, -⟩ := parseCore_elim h
  rw [hdec]
  rcases hm with rfl | ⟨w', hmw, -, -⟩
  · rw [List.nil_append]
    rcases hk with rfl | rfl | rfl
    · rw [str_class_eq, List.cons_append, str_public_eq, isPrefixOf_cons_of_ne (by decide)]
    · rw [str_interface_eq, List.cons_append, str_public_eq, isPrefixOf_cons_of_ne (by decide)]
    · rw [str_enum_eq, List.cons_append, str_public_eq, isPrefixOf_cons_of_ne (by decide)]
  · rcases hmw with rfl | rfl
    · rw [List.append_assoc, str_abstract_eq, List.cons_append, str_public_eq,
        isPrefixOf_cons_of_ne (by decide)]
    · rw [List.append_assoc, str_final_eq, List.cons_append, str_public_eq,
        isPrefixOf_cons_of_ne (by decide)]

lemma modsKind_start_not_space {m k Y : Str} (hm : ModsShape m) (hk : KindShape k) :
    (m ++ (k ++ Y)).takeWhile isSpaceChar = [] := by
  rcases hm with rfl | ⟨w', hmw, -, -⟩
  · rw [List.nil_append]
    exact takeWhile_space_nil_of_kind_start ⟨k, Y, hk, rfl⟩
  · rcases hmw with rfl | rfl
    · rw [List.append_assoc, str_abstract_eq, List.cons_append, List.takeWhile_cons,
        if_neg (by decide)]
    · rw [List.append_assoc, str_final_eq, List.cons_append, List.takeWhile_cons,
        if_neg (by decide)]

lemma matchTypeHeader_elim {l : Str} {hp : Header} (h : matchTypeHeader l = some hp) :
    hp.lead = l.takeWhile isSpaceChar ∧ (∀ c ∈ hp.lead, isSpaceChar c = true) ∧
    ((hp.pub = none ∧
      parseCore (l.dropWhile isSpaceChar) = some (hp.mods, hp.kind, hp.sp, hp.name, hp.rest)) ∨
     (hp.pub.isSome = true ∧ (str "public").isPrefixOf (l.dropWhile isSpaceChar) = true)) := by
  unfold matchTypeHeader at h
  dsimp only at h
  by_cases hpre : (str "public").isPrefixOf (l.dropWhile isSpaceChar) = true
  · rw [if_pos hpre] at h
    by_cases hwe : (((l.dropWhile isSpaceChar).drop 6).takeWhile isSpaceChar).isEmpty = true
    · rw [if_pos hwe] at h
      dsimp only at h
      rcases hc : parseCore (l.dropWhile isSpaceChar) with _ | ⟨m, k, w, n, r⟩ <;>
        rw [hc] at h <;> dsimp only at h
      · cases h
      · injection h with h
        subst h
        exact ⟨rfl, fun c hc2 => List.mem_takeWhile_imp hc2, Or.inl ⟨rfl, by simpa using hc⟩⟩
    · rw [if_neg hwe] at h
      dsimp only at h
      rcases hc : parseCore (((l.dropWhile isSpaceChar).drop 6).dropWhile isSpaceChar) with
        _ | ⟨m, k, w, n, r⟩ <;> rw [hc] at h <;> dsimp only at h
      · cases h
      · injection h with h
        subst h
        exact ⟨rfl, fun c hc => List.mem_takeWhile_imp hc, Or.inr ⟨rfl, hpre⟩⟩
  · rw [if_neg hpre] at h
    dsimp only at h
    rcases hc : parseCore (l.dropWhile isSpaceChar) with _ | ⟨m, k, w, n, r⟩ <;>
      rw [hc] at h <;> dsimp only at h
    · cases h
    · injection h with h
      subst h
      exact ⟨rfl, fun c hc2 => List.mem_takeWhile_imp hc2, Or.inl ⟨rfl, by simpa using hc⟩⟩

lemma dropWhile_lead_append {l X : Str}
    (hsx : (l.dropWhile isSpaceChar ++ X).takeWhile isSpaceChar = []) :
    (l ++ X).dropWhile isSpaceChar = l.dropWhile isSpaceChar ++ X := by
  conv_lhs => rw [(List.takeWhile_append_dropWhile isSpaceChar l).symm]
  rw [List.append_assoc]
  exact (run_extract isSpaceChar _ _ (fun c hc => List.mem_takeWhile_imp hc) hsx).2

/-- At a line-start position whose line is a type header without the
`public` modifier, the rewrite pattern matches and produces the
`public`-inserted replacement; text after the header line (beginning
with a non-word character such as a newline) is untouched. -/
lemma rwMatchAt_of_header_none {l X : Str} {hp : Header}
    (h : matchTypeHeader l = some hp) (hpub : hp.pub = none)
    (hX : X.takeWhile isWordChar = []) :
    rwMatchAt (l ++ X) =
      some (str "public " ++ hp.mods ++ hp.kind ++ str " " ++ hp.name, hp.rest ++ X) := by
  obtain ⟨hlead, hleadsp, hcase⟩ := matchTypeHeader_elim h
  rcases hcase with ⟨-, hcore⟩ | ⟨hsome, -⟩
  swap
  · rw [hpub] at hsome
    cases hsome
  have happ := parseCore_append hcore hX
  have hnp := parseCore_not_public happ
  have hsx : (l.dropWhile isSpaceChar ++ X).takeWhile isSpaceChar = [] := by
    obtain ⟨hdec2, hm2, hk2, -⟩ := parseCore_elim happ
    rw [hdec2]
    exact modsKind_start_not_space hm2 hk2
  have hdrop := dropWhile_lead_append hsx
  unfold rwMatchAt
  rw [hdrop]
  dsimp only
  rw [hnp, if_neg (by simp), happ]

/-- At a line-start position whose line is a type header carrying
`public`, the rewrite pattern does not match (the negative lookahead
rejects the position, and no other division of the leading whitespace
can succeed). -/
lemma rwMatchAt_of_header_pub {l X : Str} {hp : Header}
    (h : matchTypeHeader l = some hp) (hpub : hp.pub.isSome = true) :
    rwMatchAt (l ++ X) = none := by
  obtain ⟨hlead, hleadsp, hcase⟩ := matchTypeHeader_elim h
  rcases hcase with ⟨hnone, -⟩ | ⟨-, hpre⟩
  · rw [hnone] at hpub
    cases hpub
  obtain ⟨y, hy⟩ : ∃ y, l.dropWhile isSpaceChar = str "public" ++ y :=
    ⟨_, isPrefixOf_eq_append hpre⟩
  have hsx : (l.dropWhile isSpaceChar ++ X).takeWhile isSpaceChar = [] := by
    rw [hy, List.append_assoc, str_public_eq, List.cons_append, List.takeWhile_cons,
      if_neg (by decide)]
  have hdrop := dropWhile_lead_append hsx
  have hpre2 : (str "public").isPrefixOf (l.dropWhile isSpaceChar ++ X) = true := by
    rw [hy, List.append_assoc]
    exact isPrefixOf_append_self _ _
  unfold rwMatchAt
  rw [hdrop]
  dsimp only
  rw [if_pos hpre2]

/-! ### Walking the first-match replace over a block -/

lemma rewriteFirstGo_cons (c : Char) (rest : Str) (als : Bool) :
    rewriteFirstGo (c :: rest) als =
      if als then
        match rwMatchAt (c :: rest) with
        | some (rep, r) => rep ++ r
        | none => c :: rewriteFirstGo rest (c == '\n')
      else c :: rewriteFirstGo rest (c == '\n') := rfl

lemma rewriteFirstGo_notLS {l : Str} (r : Str) (hnl : '\n' ∉ l) :
    rewriteFirstGo (l ++ '\n' :: r) false = l ++ '\n' :: rewriteFirstGo r true := by
  induction l with
  | nil =>
    show rewriteFirstGo ('\n' :: r) false = '\n' :: rewriteFirstGo r true
    rw [rewriteFirstGo_cons]
    simp
  | cons c t ih =>
    have hc : c ≠ '\n' := fun hh => hnl (hh ▸ List.mem_cons_self c t)
    have ht : '\n' ∉ t := fun hh => hnl (List.mem_cons_of_mem _ hh)
    show rewriteFirstGo (c :: (t ++ '\n' :: r)) false = c :: (t ++ '\n' :: rewriteFirstGo r true)
    rw [rewriteFirstGo_cons, if_neg (by simp)]
    rw [show (c == '\n') = false by simp [hc], ih ht]

lemma rewriteFirstGo_notLS_single {l : Str} (hnl : '\n' ∉ l) :
    rewriteFirstGo l false = l := by
  induction l with
  | nil => rfl
  | cons c t ih =>
    have hc : c ≠ '\n' := fun hh => hnl (hh ▸ List.mem_cons_self c t)
    have ht : '\n' ∉ t := fun hh => hnl (List.mem_cons_of_mem _ hh)
    rw [rewriteFirstGo_cons, if_neg (by simp)]
    rw [show (c == '\n') = false by simp [hc], ih ht]

lemma rewriteFirstGo_LS_fail {l : Str} (r : Str) (hnl : '\n' ∉ l)
    (hfail : rwMatchAt (l ++ '\n' :: r) = none) :
    rewriteFirstGo (l ++ '\n' :: r) true = l ++ '\n' :: rewriteFirstGo r true := by
  cases l with
  | nil =>
    show rewriteFirstGo ('\n' :: r) true = '\n' :: rewriteFirstGo r true
    rw [rewriteFirstGo_cons, if_pos rfl]
    rw [show rwMatchAt ('\n' :: r) = none from hfail]
    simp
  | cons c t =>
    have hc : c ≠ '\n' := fun hh => hnl (hh ▸ List.mem_cons_self c t)
    have ht : '\n' ∉ t := fun hh => hnl (List.mem_cons_of_mem _ hh)
    show rewriteFirstGo (c :: (t ++ '\n' :: r)) true = c :: (t ++ '\n' :: rewriteFirstGo r true)
    rw [rewriteFirstGo_cons, if_pos rfl]
    rw [show rwMatchAt (c :: (t ++ '\n' :: r)) = none from hfail]
    rw [show (c == '\n') = false by simp [hc]]
    exact congrArg (c :: ·) (rewriteFirstGo_notLS r ht)

lemma rewriteFirstGo_LS_fail_single {l : Str} (hnl : '\n' ∉ l)
    (hfail : rwMatchAt l = none) :
    rewriteFirstGo l true = l := by
  cases l with
  | nil => rfl
  | cons c t =>
    have hc : c ≠ '\n' := fun hh => hnl (hh ▸ List.mem_cons_self c t)
    have ht : '\n' ∉ t := fun hh => hnl (List.mem_cons_of_mem _ hh)
    rw [rewriteFirstGo_cons, if_pos rfl]
    rw [show rwMatchAt (c :: t) = none from hfail]
    rw [show (c == '\n') = false by simp [hc], rewriteFirstGo_notLS_single ht]

lemma rewriteFirstGo_LS_succeed {s rep r : Str} (h : rwMatchAt s = some (rep, r)) :
    rewriteFirstGo s true = rep ++ r := by
  cases s with
  | nil =>
    rw [show rwMatchAt [] = none from rfl] at h
    cases h
  | cons c t =>
    rw [rewriteFirstGo_cons, if_pos rfl, h]

/-- When no suffix of the block matches the rewrite pattern at its line
start, the first-match replace is the identity. -/
lemma rewriteFirstGo_ident (ls : List Str) (hnl : ∀ l ∈ ls, '\n' ∉ l)
    (hfail : ∀ t ∈ ls.tails, rwMatchAt (joinWith (str "\n") t) = none) :
    rewriteFirstGo (joinWith (str "\n") ls) true = joinWith (str "\n") ls := by
  induction ls with
  | nil => rfl
  | cons l ls ih =>
    have hl : '\n' ∉ l := hnl l (List.mem_cons_self l ls)
    have hlt : ∀ x ∈ ls, '\n' ∉ x := fun x hx => hnl x (List.mem_cons_of_mem l hx)
    have hself : rwMatchAt (joinWith (str "\n") (l :: ls)) = none := by
      refine hfail (l :: ls) ?_
      rw [List.mem_tails]
    have hrest : ∀ t ∈ ls.tails, rwMatchAt (joinWith (str "\n") t) = none := by
      intro t ht
      refine hfail t ?_
      rw [List.mem_tails] at ht ⊢
      exact ht.trans (List.suffix_cons l ls)
    cases ls with
    | nil =>
      show rewriteFirstGo (joinWith (str "\n") [l]) true = joinWith (str "\n") [l]
      show rewriteFirstGo l true = l
      exact rewriteFirstGo_LS_fail_single hl (by simpa using hself)
    | cons l2 ls2 =>
      have hjoin : joinWith (str "\n") (l :: l2 :: ls2) =
          l ++ '\n' :: joinWith (str "\n") (l2 :: ls2) := by
        rw [joinWith_cons_cons]
        simp [str]
      rw [hjoin]
      rw [rewriteFirstGo_LS_fail _ hl (hjoin ▸ hself)]
      rw [ih hlt hrest]

lemma str_space_eq : str " " = [' '] := rfl
lemma str_public_sp_eq : str "public " = ['p', 'u', 'b', 'l', 'i', 'c', ' '] := rfl

/-- The rewritten header parses as a public type header with the same
modifiers, kind, name and trailing text. -/
lemma matchTypeHeader_newHead {m k n r : Str} (hm : ModsShape m) (hk : KindShape k)
    (hn : n ≠ []) (hnw : ∀ c ∈ n, isWordChar c = true) (hr : r.takeWhile isWordChar = []) :
    matchTypeHeader (str "public " ++ m ++ k ++ str " " ++ n ++ r) =
      some ⟨[], some (str "public" ++ [' ']), m, k, str " ", n, r⟩ := by
  have hY : str "public " ++ m ++ k ++ str " " ++ n ++ r =
      'p' :: ('u' :: ('b' :: ('l' :: ('i' :: ('c' :: (' ' :: (m ++ (k ++ ([' '] ++ (n ++ r)))))))))) := by
    rw [str_public_sp_eq, str_space_eq]
    simp
  rw [hY]
  have hRest : (m ++ (k ++ ([' '] ++ (n ++ r)))).takeWhile isSpaceChar = [] :=
    modsKind_start_not_space hm hk
  have hcore : parseCore (m ++ (k ++ ([' '] ++ (n ++ r)))) = some (m, k, [' '], n, r) := by
    refine parseCore_build (w := [' ']) hm hk (by simp) ?_ hn hnw hr
    intro c hc
    simp only [List.mem_singleton] at hc
    simp [hc, isSpaceChar]
  have hpre : (str "public").isPrefixOf
      ('p' :: ('u' :: ('b' :: ('l' :: ('i' :: ('c' :: (' ' :: (m ++ (k ++ ([' '] ++ (n ++ r))))))))))) = true := by
    rw [str_public_eq]
    simp [List.isPrefixOf_cons₂]
  unfold matchTypeHeader
  rw [List.takeWhile_cons, if_neg (by decide), List.dropWhile_cons, if_neg (by decide)]
  dsimp only
  rw [hpre, if_pos rfl]
  rw [show (List.drop 6
      ('p' :: ('u' :: ('b' :: ('l' :: ('i' :: ('c' :: (' ' :: (m ++ (k ++ ([' '] ++ (n ++ r)))))))))))) =
      ' ' :: (m ++ (k ++ ([' '] ++ (n ++ r)))) from rfl]
  rw [List.takeWhile_cons, show isSpaceChar ' ' = true from rfl, if_pos rfl, hRest]
  rw [show ((' ' :: ([] : Str)).isEmpty) = false from rfl, if_neg (by simp)]
  rw [List.dropWhile_cons, show isSpaceChar ' ' = true from rfl, if_pos rfl,
    takeWhile_nil_dropWhile_self hRest]
  dsimp only
  rw [hcore]
  rfl

/-! ### The Splitter scan invariant -/

lemma headD_append_singleton {xs : List Str} (l : Str) (h : xs ≠ []) :
    ((xs ++ [l]).headD []) = xs.headD [] := by
  cases xs with
  | nil => exact absurd rfl h
  | cons x t => rfl

lemma splitStep_eq_import {st : SState} {line : Str}
    (hi : (str "import ").isPrefixOf line = true) :
    splitStep st line =
      ⟨st.importLines ++ [line], st.typeBlocks, st.currentBlock, st.currentName, st.inType⟩ := by
  unfold splitStep
  rw [if_pos hi]

lemma splitStep_eq_header_push {st : SState} {line : Str} {hdr : Header}
    (hi : (str "import ").isPrefixOf line = false) (hh : matchTypeHeader line = some hdr)
    (hpush : (st.inType && !st.currentBlock.isEmpty && !st.currentName.isEmpty) = true) :
    splitStep st line =
      ⟨st.importLines, st.typeBlocks ++ [(st.currentName, st.currentBlock)],
       [line], hdr.name, true⟩ := by
  unfold splitStep
  rw [if_neg (by simp [hi]), hh]
  dsimp only
  rw [if_pos hpush]

lemma splitStep_eq_header_nopush {st : SState} {line : Str} {hdr : Header}
    (hi : (str "import ").isPrefixOf line = false) (hh : matchTypeHeader line = some hdr)
    (hpush : (st.inType && !st.currentBlock.isEmpty && !st.currentName.isEmpty) = false) :
    splitStep st line = ⟨st.importLines, st.typeBlocks, [line], hdr.name, true⟩ := by
  unfold splitStep
  rw [if_neg (by simp [hi]), hh]
  dsimp only
  rw [if_neg (by simp [hpush])]

lemma splitStep_eq_body_in {st : SState} {line : Str}
    (hi : (str "import ").isPrefixOf line = false) (hh : matchTypeHeader line = none)
    (hin : st.inType = true) :
    splitStep st line =
      ⟨st.importLines, st.typeBlocks, st.currentBlock ++ [line], st.currentName, st.inType⟩ := by
  unfold splitStep
  rw [if_neg (by simp [hi]), hh]
  dsimp only
  rw [if_pos hin]

lemma splitStep_eq_body_out {st : SState} {line : Str}
    (hi : (str "import ").isPrefixOf line = false) (hh : matchTypeHeader line = none)
    (hin : st.inType = false) :
    splitStep st line = st := by
  unfold splitStep
  rw [if_neg (by simp [hi]), hh]
  dsimp only
  rw [if_neg (by simp [hin])]

/-- Every block the scan records is non-empty, starts with a line that
matches the type-header pattern, and consists of scanned lines only. -/
lemma foldl_splitStep_invariant (lines : List Str) (Q : Str → Prop)
    (hQ : ∀ l ∈ lines, Q l) :
    ∀ st : SState,
    (∀ b ∈ st.typeBlocks,
      b.2 ≠ [] ∧ (matchTypeHeader (b.2.headD [])).isSome = true ∧ ∀ l ∈ b.2, Q l) →
    (st.inType = true →
      st.currentBlock ≠ [] ∧ (matchTypeHeader (st.currentBlock.headD [])).isSome = true ∧
      ∀ l ∈ st.currentBlock, Q l) →
    (∀ b ∈ (lines.foldl splitStep st).typeBlocks,
      b.2 ≠ [] ∧ (matchTypeHeader (b.2.headD [])).isSome = true ∧ ∀ l ∈ b.2, Q l) ∧
    ((lines.foldl splitStep st).inType = true →
      (lines.foldl splitStep st).currentBlock ≠ [] ∧
      (matchTypeHeader ((lines.foldl splitStep st).currentBlock.headD [])).isSome = true ∧
      ∀ l ∈ (lines.foldl splitStep st).currentBlock, Q l) := by
  induction lines with
  | nil => exact fun st h1 h2 => ⟨h1, h2⟩
  | cons line rest ih =>
    intro st h1 h2
    have hQl : Q line := hQ line (List.mem_cons_self line rest)
    have hQr : ∀ l ∈ rest, Q l := fun l hl => hQ l (List.mem_cons_of_mem line hl)
    rw [List.foldl_cons]
    refine ih hQr (splitStep st line) ?_ ?_
    · intro b hb
      by_cases hi : (str "import ").isPrefixOf line = true
      · rw [splitStep_eq_import hi] at hb
        exact h1 b hb
      · replace hi : (str "import ").isPrefixOf line = false := by
          cases hq : (str "import ").isPrefixOf line
          · rfl
          · exact absurd hq hi
        rcases hh : matchTypeHeader line with _ | hdr
        · by_cases hin : st.inType = true
          · rw [splitStep_eq_body_in hi hh hin] at hb
            exact h1 b hb
          · replace hin : st.inType = false := by
              cases hq : st.inType
              · rfl
              · exact absurd hq hin
            rw [splitStep_eq_body_out hi hh hin] at hb
            exact h1 b hb
        · by_cases hpush : (st.inType && !st.currentBlock.isEmpty && !st.currentName.isEmpty) = true
          · rw [splitStep_eq_header_push hi hh hpush] at hb
            dsimp only at hb
            rcases List.mem_append.mp hb with hb' | hb'
            · exact h1 b hb'
            · rw [List.mem_singleton] at hb'
              subst hb'
              have hin : st.inType = true := by
                simp only [Bool.and_eq_true] at hpush
                exact hpush.1.1
              exact h2 hin
          · replace hpush : (st.inType && !st.currentBlock.isEmpty && !st.currentName.isEmpty) = false := by
              cases hq : (st.inType && !st.currentBlock.isEmpty && !st.currentName.isEmpty)
              · rfl
              · exact absurd hq hpush
            rw [splitStep_eq_header_nopush hi hh hpush] at hb
            exact h1 b hb
    · intro hin2
      by_cases hi : (str "import ").isPrefixOf line = true
      · rw [splitStep_eq_import hi] at hin2 ⊢
        exact h2 hin2
      · replace hi : (str "import ").isPrefixOf line = false := by
          cases hq : (str "import ").isPrefixOf line
          · rfl
          · exact absurd hq hi
        rcases hh : matchTypeHeader line with _ | hdr
        · by_cases hin : st.inType = true
          · rw [splitStep_eq_body_in hi hh hin] at hin2 ⊢
            dsimp only
            obtain ⟨hc1, hc2, hc3⟩ := h2 hin
            refine ⟨by simp, ?_, ?_⟩
            · rw [headD_append_singleton line hc1]
              exact hc2
            · intro l hl
              rcases List.mem_append.mp hl with hl' | hl'
              · exact hc3 l hl'
              · rw [List.mem_singleton] at hl'
                subst hl'
                exact hQl
          · replace hin : st.inType = false := by
              cases hq : st.inType
              · rfl
              · exact absurd hq hin
            rw [splitStep_eq_body_out hi hh hin] at hin2 ⊢
            exact h2 hin2
        · by_cases hpush : (st.inType && !st.currentBlock.isEmpty && !st.currentName.isEmpty) = true
          · rw [splitStep_eq_header_push hi hh hpush]
            dsimp only
            refine ⟨by simp, ?_, ?_⟩
            · simp only [List.headD_cons, hh, Option.isSome_some]
            · intro l hl
              rw [List.mem_singleton] at hl
              subst hl
              exact hQl
          · replace hpush : (st.inType && !st.currentBlock.isEmpty && !st.currentName.isEmpty) = false := by
              cases hq : (st.inType && !st.currentBlock.isEmpty && !st.currentName.isEmpty)
              · rfl
              · exact absurd hq hpush
            rw [splitStep_eq_header_nopush hi hh hpush]
            dsimp only
            refine ⟨by simp, ?_, ?_⟩
            · simp only [List.headD_cons, hh, Option.isSome_some]
            · intro l hl
              rw [List.mem_singleton] at hl
              subst hl
              exact hQl

/-- The invariant transported to the final block list of `splitScan`. -/
lemma splitScan_blocks {content : Str} {tname : Str} {B : List Str}
    (hmem : (tname, B) ∈ (splitScan (splitLines content)).typeBlocks) :
    B ≠ [] ∧ (matchTypeHeader (B.headD [])).isSome = true ∧
    ∀ l ∈ B, l ∈ splitLines content := by
  unfold splitScan at hmem
  have hinv := foldl_splitStep_invariant (splitLines content) (fun l => l ∈ splitLines content)
    (fun l hl => hl) ⟨[], [], [], [], false⟩ (by intro b hb; cases hb) (by intro h; cases h)
  set st := (splitLines content).foldl splitStep ⟨[], [], [], [], false⟩ with hst
  by_cases hpush : (st.inType && !st.currentBlock.isEmpty && !st.currentName.isEmpty) = true
  · rw [if_pos hpush] at hmem
    dsimp only at hmem
    rcases List.mem_append.mp hmem with hb' | hb'
    · exact hinv.1 (tname, B) hb'
    · rw [List.mem_singleton] at hb'
      have hin : st.inType = true := by
        simp only [Bool.and_eq_true] at hpush
        exact hpush.1.1
      have hcur := hinv.2 hin
      have hBeq : B = st.currentBlock := congrArg Prod.snd hb'
      rw [hBeq]
      exact hcur
  · rw [if_neg hpush] at hmem
    exact hinv.1 (tname, B) hmem

/-- C3 (amended): every block recorded by the Splitter starts with a
type-header line, and -- provided the rewrite pattern matches at no
line-start position strictly inside the block (it can otherwise match
across lines, merging them) -- the visibility rewrite leaves a block
whose header already carries `public` untouched, and otherwise rewrites
only the header: the new header is `public` followed by the original
modifiers, kind and name verbatim plus the original line remainder, the
whitespace being normalised, and it parses as a public type header with
identical mods/kind/name/rest; all other lines are unchanged. -/
theorem split_rewrite_header_only (content : Str) (tname : Str) (B : List Str)
    (hmem : (tname, B) ∈ (splitScan (splitLines content)).typeBlocks)
    (htail : ∀ t ∈ B.tails, t ≠ B → rwMatchAt (joinWith (str "\n") t) = none) :
    ∃ hp : Header, B ≠ [] ∧ matchTypeHeader (B.headD []) = some hp ∧
      (hp.pub.isSome = true →
        rewriteFirst (joinWith (str "\n") B) = joinWith (str "\n") B) ∧
      (hp.pub = none →
        B.headD [] = hp.lead ++ (hp.mods ++ (hp.kind ++ (hp.sp ++ (hp.name ++ hp.rest)))) ∧
        rewriteFirst (joinWith (str "\n") B) =
          joinWith (str "\n")
            ((str "public " ++ hp.mods ++ hp.kind ++ str " " ++ hp.name ++ hp.rest) :: B.tail) ∧
        ∃ hp2 : Header,
          matchTypeHeader (str "public " ++ hp.mods ++ hp.kind ++ str " " ++ hp.name ++ hp.rest) =
            some hp2 ∧
          hp2.pub.isSome = true ∧ hp2.mods = hp.mods ∧ hp2.kind = hp.kind ∧
          hp2.name = hp.name ∧ hp2.rest = hp.rest) := by
  obtain ⟨hBne, hhead, hmemlines⟩ := splitScan_blocks hmem
  have hnl : ∀ l ∈ B, '\n' ∉ l := fun l hl => splitLines_no_newline l (hmemlines l hl)
  rcases hhp : matchTypeHeader (B.headD []) with _ | hp
  · rw [hhp] at hhead
    cases hhead
  refine ⟨hp, hBne, rfl, ?_, ?_⟩
  · -- header already public: the rewrite is the identity
    intro hpub
    cases B with
    | nil => exact absurd rfl hBne
    | cons h0 tail =>
      have hh0 : matchTypeHeader h0 = some hp := hhp
      have hnl0 : '\n' ∉ h0 := hnl h0 (List.mem_cons_self h0 tail)
      have hnlt : ∀ l ∈ tail, '\n' ∉ l := fun l hl => hnl l (List.mem_cons_of_mem h0 hl)
      cases tail with
      | nil =>
        show rewriteFirstGo (joinWith (str "\n") [h0]) true = joinWith (str "\n") [h0]
        show rewriteFirstGo h0 true = h0
        have hfail : rwMatchAt h0 = none := by
          have := rwMatchAt_of_header_pub (X := []) hh0 hpub
          rwa [List.append_nil] at this
        exact rewriteFirstGo_LS_fail_single hnl0 hfail
      | cons l2 ls2 =>
        have hjoin : joinWith (str "\n") (h0 :: l2 :: ls2) =
            h0 ++ '\n' :: joinWith (str "\n") (l2 :: ls2) := by
          rw [joinWith_cons_cons]
          simp [str]
        have hfails : ∀ t ∈ (l2 :: ls2).tails, rwMatchAt (joinWith (str "\n") t) = none := by
          intro t ht
          refine htail t ?_ ?_
          · rw [List.mem_tails] at ht ⊢
            exact ht.trans (List.suffix_cons h0 (l2 :: ls2))
          · intro hteq
            rw [List.mem_tails] at ht
            have hle := ht.length_le
            rw [hteq] at hle
            simp at hle
        show rewriteFirstGo (joinWith (str "\n") (h0 :: l2 :: ls2)) true = _
        rw [hjoin]
        rw [rewriteFirstGo_LS_fail _ hnl0 (rwMatchAt_of_header_pub hh0 hpub)]
        rw [rewriteFirstGo_ident (l2 :: ls2) hnlt hfails]
  · -- header without public: only the header line changes
    intro hpub
    cases B with
    | nil => exact absurd rfl hBne
    | cons h0 tail =>
      have hh0 : matchTypeHeader h0 = some hp := hhp
      have hnl0 : '\n' ∉ h0 := hnl h0 (List.mem_cons_self h0 tail)
      obtain ⟨hlead, hleadsp, hcase⟩ := matchTypeHeader_elim hh0
      rcases hcase with ⟨-, hcore⟩ | ⟨hsome, -⟩
      swap
      · rw [hpub] at hsome
        cases hsome
      obtain ⟨hdec, hm, hk, hw, hws, hn, hnw, hr⟩ := parseCore_elim hcore
      have hheadeq : h0 = hp.lead ++ (hp.mods ++ (hp.kind ++ (hp.sp ++ (hp.name ++ hp.rest)))) := by
        conv_lhs => rw [(List.takeWhile_append_dropWhile isSpaceChar h0).symm]
        rw [hdec, hlead]
      refine ⟨hheadeq, ?_, ?_⟩
      · cases tail with
        | nil =>
          show rewriteFirstGo (joinWith (str "\n") [h0]) true = _
          show rewriteFirstGo h0 true =
            joinWith (str "\n") [str "public " ++ hp.mods ++ hp.kind ++ str " " ++ hp.name ++ hp.rest]
          have hmt : rwMatchAt h0 =
              some (str "public " ++ hp.mods ++ hp.kind ++ str " " ++ hp.name, hp.rest) := by
            have := rwMatchAt_of_header_none (X := []) hh0 hpub rfl
            rwa [List.append_nil, List.append_nil] at this
          rw [rewriteFirstGo_LS_succeed hmt]
          show _ = str "public " ++ hp.mods ++ hp.kind ++ str " " ++ hp.name ++ hp.rest
          simp [List.append_assoc]
        | cons l2 ls2 =>
          have hjoin : joinWith (str "\n") (h0 :: l2 :: ls2) =
              h0 ++ '\n' :: joinWith (str "\n") (l2 :: ls2) := by
            rw [joinWith_cons_cons]
            simp [str]
          have hX : ('\n' :: joinWith (str "\n") (l2 :: ls2)).takeWhile isWordChar = [] := by
            rw [List.takeWhile_cons, if_neg (by decide)]
          have hmt := rwMatchAt_of_header_none (X := '\n' :: joinWith (str "\n") (l2 :: ls2))
            hh0 hpub hX
          show rewriteFirstGo (joinWith (str "\n") (h0 :: l2 :: ls2)) true = _
          rw [hjoin, rewriteFirstGo_LS_succeed hmt]
          dsimp only [List.tail_cons]
          have hjoin2 : joinWith (str "\n")
              ((str "public " ++ hp.mods ++ hp.kind ++ str " " ++ hp.name ++ hp.rest) :: l2 :: ls2) =
              (str "public " ++ hp.mods ++ hp.kind ++ str " " ++ hp.name ++ hp.rest) ++
                '\n' :: joinWith (str "\n") (l2 :: ls2) := by
            rw [joinWith_cons_cons]
            simp [str]
          rw [hjoin2]
          simp [List.append_assoc]
      · refine ⟨⟨[], some (str "public" ++ [' ']), hp.mods, hp.kind, str " ", hp.name, hp.rest⟩,
          matchTypeHeader_newHead hm hk hn hnw hr, ?_, rfl, rfl, rfl, rfl⟩
        rfl

def c3cexContent : Str := str "public class Main \x7b\n\x7d\nclass\nHelper \x7b\x7d"

/-- C3 counterexample: the scan records a single block whose header is
already public, so the claim says the rewrite changes nothing; but the
rewrite pattern matches across the two body lines `class` and
`Helper ...` (the `\s+` after the kind keyword spans the newline),
merging them into a new public header line -- lines other than the
header are altered. -/
theorem split_rewrite_counterexample :
    (splitScan (splitLines c3cexContent)).typeBlocks =
      [(str "Main", [str "public class Main \x7b", str "\x7d", str "class", str "Helper \x7b\x7d"])] ∧
    rewriteFirst (joinWith (str "\n")
        [str "public class Main \x7b", str "\x7d", str "class", str "Helper \x7b\x7d"]) =
      joinWith (str "\n")
        [str "public class Main \x7b", str "\x7d", str "public class Helper \x7b\x7d"] ∧
    rewriteFirst (joinWith (str "\n")
        [str "public class Main \x7b", str "\x7d", str "class", str "Helper \x7b\x7d"]) ≠
      joinWith (str "\n")
        [str "public class Main \x7b", str "\x7d", str "class", str "Helper \x7b\x7d"] := by
  decide

def c3wContent : Str := str "class A \x7b\nint x;\n\x7d"

def c3wBlock : List Str := [str "class A \x7b", str "int x;", str "\x7d"]

/-- Witness for the amended C3 at a concrete block. -/
theorem split_rewrite_header_only_witness :
    ∃ hp : Header, c3wBlock ≠ [] ∧ matchTypeHeader (c3wBlock.headD []) = some hp ∧
      (hp.pub.isSome = true →
        rewriteFirst (joinWith (str "\n") c3wBlock) = joinWith (str "\n") c3wBlock) ∧
      (hp.pub = none →
        c3wBlock.headD [] = hp.lead ++ (hp.mods ++ (hp.kind ++ (hp.sp ++ (hp.name ++ hp.rest)))) ∧
        rewriteFirst (joinWith (str "\n") c3wBlock) =
          joinWith (str "\n")
            ((str "public " ++ hp.mods ++ hp.kind ++ str " " ++ hp.name ++ hp.rest) :: c3wBlock.tail) ∧
        ∃ hp2 : Header,
          matchTypeHeader (str "public " ++ hp.mods ++ hp.kind ++ str " " ++ hp.name ++ hp.rest) =
            some hp2 ∧
          hp2.pub.isSome = true ∧ hp2.mods = hp.mods ∧ hp2.kind = hp.kind ∧
          hp2.name = hp.name ∧ hp2.rest = hp.rest) :=
  split_rewrite_header_only c3wContent (str "A") c3wBlock (by decide) (by decide)

/-! ### C1: the round-trip scenario -/

def c1content : Str :=
  str "import b.B;\nimport a.A;\nclass Helper \x7b\nint h;\n\x7d\npublic class Main \x7b\npublic static void main(String[] a) \x7b\n\x7d\n\x7d"

def c1mainBlock : List Str :=
  [str "public class Main \x7b", str "public static void main(String[] a) \x7b",
   str "\x7d", str "\x7d"]

def c1helperFile : Str :=
  str "import b.B;\nimport a.A;\n\npublic class Helper \x7b\nint h;\n\x7d"

def c1mainFile : Str :=
  str "import b.B;\nimport a.A;\n\npublic class Main \x7b\npublic static void main(String[] a) \x7b\n\x7d\n\x7d"

/-- C1 counterexample: running merge over the directory split produces
does not reproduce an entry-point body equal to the original `Main`
block: each split file carries a blank separator line between its
its imports and its class, which survives into the re-extracted body,
so the reproduced entry-point body is a newline followed by the original
block. -/
theorem split_merge_roundtrip_counterexample :
    (mergeState ((splitFilesOf c1content).map (fun p => p.2))).mainClassContent =
      '\n' :: joinWith (str "\n") c1mainBlock ∧
    (mergeState ((splitFilesOf c1content).map (fun p => p.2))).mainClassContent ≠
      joinWith (str "\n") c1mainBlock := by
  decide

/-- C1 (amended, at the scenario instance): splitting the merged file
produces exactly `Helper.java` and `Main.java`, each containing both
of the import lines and exactly one (public) type header; merging that
directory produces a file whose import block is the two original
ones sorted, whose auxiliary section is the blank separator line
followed by `Helper` with `public` stripped, and whose entry-point body
is the blank separator line followed by the original `Main` block. -/
theorem split_merge_roundtrip_amended :
    splitModel true c1content =
      .ok [(str "Helper.java", c1helperFile), (str "Main.java", c1mainFile)] ∧
    ((str "import b.B;") ∈ splitLines c1helperFile ∧
     (str "import a.A;") ∈ splitLines c1helperFile ∧
     (str "import b.B;") ∈ splitLines c1mainFile ∧
     (str "import a.A;") ∈ splitLines c1mainFile) ∧
    countPub c1helperFile = 1 ∧ countPub c1mainFile = 1 ∧
    mergeFilesModel true [c1helperFile, c1mainFile] =
      .ok (joinWith (str "\n\n")
        [str "import a.A;", str "import b.B;", [],
         '\n' :: joinWith (str "\n") [str "class Helper \x7b", str "int h;", str "\x7d"], [],
         '\n' :: joinWith (str "\n") c1mainBlock]) := by
  decide

end LCheck
